import Mathlib

/-!
Shallow embedding of the ContextKeeper knowledge-graph construction pipeline
(`backend/scripts/knowledge_graph_builder.py`) and of the urgency analysis of
the decision engine (`backend/agents/decision_engine.py`), together with
theorems settling the specification claims about them.

Modelling conventions:
* Python strings are Lean `String`s (inputs are ASCII; `str.lower` is
  modelled by mapping `Char.toLower` over the characters).
* Python `dict`s and `defaultdict`s are insertion-ordered association
  lists; Python `set`s are insertion-ordered duplicate-free lists (CPython
  set iteration order is implementation defined; every theorem proved below
  is independent of the particular deterministic order chosen).
* CPython's salted string hash is modelled by a fixed deterministic hash;
  the program only relies on the hash being deterministic within one run.
* `math.log` computations are idealised over the real numbers, so the two
  float-valued scoring functions are modelled as functions into `ℝ` that
  are derived from the stored integer data rather than stored in the
  payload records (which keeps the payload computable).
* Exceptions at the store boundary are modelled with `Except`.
-/

set_option maxRecDepth 100000
set_option linter.unusedVariables false

namespace ContextKeeper

/-! ## String utilities (ASCII models of the Python `str` operations used) -/

/-- Python `str.lower` on ASCII text: lower-case every character. -/
def strLower (s : String) : String := ⟨s.data.map Char.toLower⟩

/-- Python `s[:n]`. -/
def strTake (s : String) (n : Nat) : String := ⟨s.data.take n⟩

/-- Contiguous-sublist check on lists of characters. -/
def infixB (pat : List Char) : List Char → Bool
  | [] => pat.isEmpty
  | c :: rest => pat.isPrefixOf (c :: rest) || infixB pat rest

/-- Python `pat in s` (substring containment). -/
def substrB (pat s : String) : Bool := infixB pat.data s.data

/-- The characters matched by Python's `\s` (ASCII). -/
def isSpaceChar (c : Char) : Bool :=
  c = ' ' || c = '\t' || c = '\n' || c = '\r' || c = '\x0b' || c = '\x0c'

/-- Python `str.strip()` (ASCII whitespace). -/
def strip (s : String) : String :=
  ⟨((s.data.dropWhile isSpaceChar).reverse.dropWhile isSpaceChar).reverse⟩

/-- Python word character for `\b` boundaries: `[a-zA-Z0-9_]` (ASCII). -/
def isWordChar (c : Char) : Bool := c.isAlphanum || c = '_'

/-- Python `list.index` for lists with decidable equality. -/
def indexOfD {α : Type} [DecidableEq α] (x : α) : List α → Nat
  | [] => 0
  | y :: ys => if y = x then 0 else indexOfD x ys + 1

/-- Ordered model of `set.add`: append the element unless already present. -/
def insertDedup {α : Type} [DecidableEq α] (l : List α) (x : α) : List α :=
  if x ∈ l then l else l ++ [x]

/-- Association-list lookup (model of Python `dict` access). -/
def alookup {α : Type} (k : String) : List (String × α) → Option α
  | [] => none
  | (k', v) :: rest => if k' = k then some v else alookup k rest

/-- `defaultdict`-style update: apply `f` to the stored value (or to the
default `d` when the key is absent, appending the new entry). -/
def aupdate {α : Type} (m : List (String × α)) (k : String) (f : α → α) (d : α) :
    List (String × α) :=
  match m with
  | [] => [(k, f d)]
  | (k', v) :: rest => if k' = k then (k, f v) :: rest else (k', v) :: aupdate rest k f d

/-- Fuel-driven worker for `strSplit`; the fuel is an upper bound on the
number of steps (each step consumes at least one character for a non-empty
separator), so the fuel-0 fallback is never reached in practice. -/
def splitChars (sep : List Char) : Nat → List Char → List Char → List (List Char)
  | 0, s, acc => [acc ++ s]
  | fu + 1, s, acc =>
    match s with
    | [] => [acc]
    | c :: rest =>
      if sep.isPrefixOf (c :: rest) then
        acc :: splitChars sep fu ((c :: rest).drop sep.length) []
      else
        splitChars sep fu rest (acc ++ [c])

/-- Python `s.split(sep)` for a non-empty separator (splits at every
non-overlapping occurrence, keeping empty pieces). -/
def strSplit (s sep : String) : List String :=
  (splitChars sep.data (s.data.length + 1) s.data []).map (fun l => ⟨l⟩)

/-- Fuel-driven worker for `strReplace`. -/
def replaceChars (pat rep : List Char) : Nat → List Char → List Char
  | 0, s => s
  | fu + 1, s =>
    match s with
    | [] => []
    | c :: rest =>
      if pat ≠ [] ∧ pat.isPrefixOf (c :: rest) then
        rep ++ replaceChars pat rep fu ((c :: rest).drop pat.length)
      else
        c :: replaceChars pat rep fu rest

/-- Python `s.replace(pat, rep)` for a non-empty pattern (replaces every
non-overlapping occurrence, left to right). -/
def strReplace (s pat rep : String) : String :=
  ⟨replaceChars pat.data rep.data (s.data.length + 1) s.data⟩

/-! ## Word-boundary regex search

`extract_modules` matches every technology variant with the pattern
`r'\b' + re.escape(variation) + r'\b'`.  All variants begin and end with a
word character, so a match at position `i` is an occurrence of the literal
pattern whose neighbouring characters (when they exist) are non-word
characters.  `findWB` lists the matches exactly as `re.finditer` does:
leftmost first, non-overlapping, resuming after each match. -/

def charAt? (s : List Char) (i : Nat) : Option Char := (s.drop i).head?

def wbMatchAt (s pat : List Char) (i : Nat) : Bool :=
  pat.isPrefixOf (s.drop i)
  && (i = 0 || !isWordChar (s.getD (i - 1) ' '))
  && (s.length ≤ i + pat.length || !isWordChar (s.getD (i + pat.length) ' '))

def findWBFrom (s pat : List Char) : Nat → Nat → List Nat
  | _, 0 => []
  | i, fuel + 1 =>
    if s.length < i + pat.length then []
    else if wbMatchAt s pat i then i :: findWBFrom s pat (i + pat.length) fuel
    else findWBFrom s pat (i + 1) fuel

def findWB (s pat : List Char) : List Nat := findWBFrom s pat 0 (s.length + 1)

/-- Python `text[max(0, st-pad) : st+len+pad]` — `Nat` subtraction saturates
at `0` and `List.take` clamps at the end of the list, exactly like a slice. -/
def ctxSlice (s : List Char) (st len pad : Nat) : List Char :=
  (s.drop (st - pad)).take ((st + len + pad) - (st - pad))

def valid_indicators : List String :=
  ["using", "with", "implement", "add", "update", "fix",
   "install", "upgrade", "migrate", "integrate", "configure",
   "setup", "deploy", "build", "run", "start", "stop"]

/-- `KnowledgeGraphBuilder._is_false_positive_context`.  The loop over the
matches returns `False` as soon as one 20-character context contains a
valid indicator; after the loop the result is `True` exactly when every
10-character window contains a `/`. -/
def is_false_positive_context (text keyword : String) : Bool :=
  let s := text.data
  let kw := keyword.data
  let ms := findWB s kw
  if ms.isEmpty then false
  else if ms.any (fun st =>
      valid_indicators.any (fun ind => infixB ind.data (ctxSlice s st kw.length 20))) then
    false
  else if ms.all (fun st => (ctxSlice s st kw.length 10).contains '/') then true
  else false

/-! ## Module extraction (`KnowledgeGraphBuilder.extract_modules`) -/

def tech_keywords : List (String × List String) :=
  [("redis", ["redis", "redis-server", "redis-cli"]),
   ("postgres", ["postgres", "postgresql", "psql", "pg"]),
   ("mongodb", ["mongodb", "mongo", "mongoose"]),
   ("mysql", ["mysql", "mariadb"]),
   ("elasticsearch", ["elasticsearch", "elastic", "es"]),
   ("chromadb", ["chromadb", "chroma"]),
   ("react", ["react", "reactjs", "react.js"]),
   ("vue", ["vue", "vuejs", "vue.js"]),
   ("angular", ["angular", "angularjs"]),
   ("nextjs", ["nextjs", "next.js", "next"]),
   ("node", ["node", "nodejs", "node.js"]),
   ("express", ["express", "expressjs", "express.js"]),
   ("django", ["django"]),
   ("flask", ["flask"]),
   ("fastapi", ["fastapi", "fast-api"]),
   ("docker", ["docker", "dockerfile", "docker-compose"]),
   ("kubernetes", ["kubernetes", "k8s", "kubectl"]),
   ("aws", ["aws", "amazon-web-services"]),
   ("azure", ["azure", "microsoft-azure"]),
   ("gcp", ["gcp", "google-cloud", "google-cloud-platform"]),
   ("graphql", ["graphql", "gql"]),
   ("rest", ["rest", "restful", "rest-api"]),
   ("grpc", ["grpc"]),
   ("websocket", ["websocket", "ws"]),
   ("jwt", ["jwt", "json-web-token"]),
   ("oauth", ["oauth", "oauth2"]),
   ("auth0", ["auth0"]),
   ("firebase", ["firebase"]),
   ("webpack", ["webpack"]),
   ("vite", ["vite", "vitejs"]),
   ("babel", ["babel", "babeljs"]),
   ("typescript", ["typescript", "ts"]),
   ("javascript", ["javascript", "js"]),
   ("python", ["python", "py"]),
   ("huggingface", ["huggingface", "hugging-face", "hf"]),
   ("gemini", ["gemini", "google-gemini"]),
   ("slack", ["slack"]),
   ("github", ["github", "gh"]),
   ("notion", ["notion"]),
   ("tailwind", ["tailwind", "tailwindcss"]),
   ("bootstrap", ["bootstrap"]),
   ("kestra", ["kestra"])]

/-- Python `str.capitalize`: upper-case the first character, lower-case the
rest. -/
def strCapitalize (s : String) : String :=
  match s.data with
  | [] => ⟨[]⟩
  | c :: cs => ⟨c.toUpper :: cs.map Char.toLower⟩

def file_extensions : List (String × String) :=
  [(".py", "Python"), (".js", "Javascript"), (".ts", "Typescript"),
   (".jsx", "React"), (".tsx", "React"), (".vue", "Vue"), (".go", "Go"),
   (".java", "Java"), (".rb", "Ruby"), (".php", "Php"), (".rs", "Rust")]

/-- A technology variant has a whole-word occurrence in the lowered text. -/
def variationFound (text_lower : String) (v : String) : Bool :=
  !(findWB text_lower.data v.data).isEmpty

/-- `extract_modules`: a canonical name is added when some variant has a
whole-word match that is not a false-positive context (the `break` in the
source only skips the remaining variants of an already-accepted
technology, so acceptance is exactly an existential over the variants);
afterwards every file extension occurring as a substring adds its
language.  The Python result is a `set`; it is modelled as an
insertion-ordered duplicate-free list. -/
def extract_modules (text : String) : List String :=
  if text = "" then []
  else
    let text_lower := strLower text
    let fromKeywords := tech_keywords.foldl (fun acc ck =>
      if ck.2.any (fun v => variationFound text_lower v
                    && !is_false_positive_context text_lower v)
      then insertDedup acc (strCapitalize ck.1) else acc) []
    file_extensions.foldl (fun acc et =>
      if substrB et.1 text_lower then insertDedup acc et.2 else acc) fromKeywords

/-! ## File-path extraction (`KnowledgeGraphBuilder.extract_files_from_text`)

The pattern `(?:^|[\s"\'])((?:[a-zA-Z0-9_-]+/)*[a-zA-Z0-9_-]+\.[a-zA-Z0-9]+)(?:[\s,;"\']|$)`
is hand-compiled.  Because `.` and `/` are excluded from the segment/name
character class and the extension class, the regex backtracking is
vacuous: maximal character runs are forced, so a deterministic parser is
an exact model.  `re.findall` semantics: scan left to right; on a match,
record capture group 1 and resume after the whole match (the consumed
trailing delimiter included). -/

def isPathChar (c : Char) : Bool := c.isAlphanum || c = '_' || c = '-'

def isPreDelim (c : Char) : Bool := isSpaceChar c || c = '"' || c = '\''

def isPostDelim (c : Char) : Bool :=
  isSpaceChar c || c = ',' || c = ';' || c = '"' || c = '\''

/-- Parse `(?:[a-zA-Z0-9_-]+/)*[a-zA-Z0-9_-]+\.[a-zA-Z0-9]+(?:[\s,;"\']|$)`
at position `q`.  On success, return the end of the capture and the end of
the whole match. -/
def parsePath (s : List Char) : Nat → Nat → Option (Nat × Nat)
  | _, 0 => none
  | q, fuel + 1 =>
    let run := (s.drop q).takeWhile isPathChar
    if run.isEmpty then none
    else
      let e1 := q + run.length
      match charAt? s e1 with
      | some '/' => parsePath s (e1 + 1) fuel
      | some '.' =>
        let ext := (s.drop (e1 + 1)).takeWhile Char.isAlphanum
        if ext.isEmpty then none
        else
          let e2 := e1 + 1 + ext.length
          match charAt? s e2 with
          | none => some (e2, e2)
          | some c => if isPostDelim c then some (e2, e2 + 1) else none
      | _ => none

/-- One attempt at scan position `p`.  The alternation `(?:^|[\s"\'])` tries
the zero-width `^` first (possible only at position 0) and then a consumed
delimiter character. -/
def fileMatchAt (s : List Char) (p : Nat) : Option (List Char × Nat) :=
  let attempt := fun (q : Nat) =>
    match parsePath s q (s.length + 1) with
    | some (e2, fin) => some ((s.drop q).take (e2 - q), fin)
    | none => none
  if p = 0 then
    match attempt 0 with
    | some r => some r
    | none =>
      match charAt? s 0 with
      | some c => if isPreDelim c then attempt 1 else none
      | none => none
  else
    match charAt? s p with
    | some c => if isPreDelim c then attempt (p + 1) else none
    | none => none

def scanFiles (s : List Char) : Nat → Nat → List (List Char)
  | _, 0 => []
  | p, fuel + 1 =>
    if s.length ≤ p then []
    else
      match fileMatchAt s p with
      | some (cap, fin) => cap :: scanFiles s (max fin (p + 1)) fuel
      | none => scanFiles s (p + 1) fuel

/-- `KnowledgeGraphBuilder.extract_files_from_text` (the Python function
collects the matches into a `set`, modelled as an ordered dedup list). -/
def extract_files_from_text (text : String) : List String :=
  if text = "" then []
  else (scanFiles text.data 0 (text.length + 1)).foldl
    (fun acc cap => insertDedup acc ⟨cap⟩) []

/-! ## Document metadata -/

/-- A document's metadata.  `none` models both a missing key and an explicit
`None` (the two are indistinguishable to the builder: a missing author
defaults to `"Unknown"`, which `normalize_author` sends to `None` just as
it does `None` itself). -/
structure Metadata where
  type : String := "unknown"
  author : Option String := none
  url : Option String := none
  date : String := ""
  deriving Repr, DecidableEq

structure Doc where
  text : String
  meta : Metadata
  deriving Repr, DecidableEq

/-! ## Decision extraction (`KnowledgeGraphBuilder.extract_decisions`) -/

def decision_indicators : List (String × List String) :=
  [("decision", ["decided", "decision", "conclude", "conclusion"]),
   ("choice", ["chose", "choose", "selected", "select", "pick", "opt"]),
   ("change", ["switch", "migrate", "refactor", "redesign", "rewrite"]),
   ("strategy", ["approach", "strategy", "plan", "methodology"]),
   ("architecture", ["architecture", "design", "pattern", "structure"])]

/-- The categories with at least one trigger word in the lowered text; the
source accumulates them in a `set` while incrementing `decision_score`,
so the score is the number of matched categories (order modelled as table
order). -/
def matchedCategories (text : String) : List String :=
  (decision_indicators.filter
    (fun ci => ci.2.any (fun kw => substrB kw (strLower text)))).map (fun ci => ci.1)

def decisionScore (text : String) : Nat := (matchedCategories text).length

/-- The stripped non-blank lines of the text. -/
def nonBlankLines (text : String) : List String :=
  ((strSplit text "\n").map strip).filter (fun l => l ≠ "")

/-- `lines[0][:80] if lines else default`. -/
def decisionTitle (text dflt : String) : String :=
  match nonBlankLines text with
  | [] => dflt
  | l :: _ => strTake l 80

def categoryStr (text : String) : String :=
  String.intercalate ", " (matchedCategories text)

/-- `KnowledgeGraphBuilder.extract_decisions`. -/
def extract_decisions (text : String) (metadata : Metadata) : List String :=
  if text = "" then []
  else
    let doc_type := metadata.type
    if 2 ≤ decisionScore text ∧ 150 < text.length then
      if doc_type = "pull_request" then
        ["PR: " ++ decisionTitle text "PR Decision" ++ " [" ++ categoryStr text ++ "]"]
      else if doc_type = "issue" then
        ["Issue: " ++ decisionTitle text "Issue Decision" ++ " [" ++ categoryStr text ++ "]"]
      else []
    else []

/-! ## Author normalization (`KnowledgeGraphBuilder.normalize_author`) -/

/-- `normalize_author`, with the per-run `self.author_map` passed
explicitly.  `none` models Python `None` (both as input and output);
`if not author or author == 'Unknown'` is `none`, the empty string, or the
literal `"Unknown"`. -/
def normalize_author (author : Option String) (author_map : List (String × String)) :
    Option String × List (String × String) :=
  match author with
  | none => (none, author_map)
  | some a =>
    if a = "" ∨ a = "Unknown" then (none, author_map)
    else
      let author_lower := strLower a
      match alookup author_lower author_map with
      | some v => (some v, author_map)
      | none => (some a, author_map ++ [(author_lower, a)])

/-! ## Relationship weighting and node importance (floats idealised as `ℝ`) -/

def type_weights : List (String × ℚ) :=
  [("authored", 2.0), ("contributed", 1.5), ("modified", 1.5),
   ("uses", 1.2), ("decided", 1.8), ("related", 1.0)]

def typeMultiplier (relationship_type : String) : ℚ :=
  (alookup relationship_type type_weights).getD 1.0

/-- `KnowledgeGraphBuilder.calculate_relationship_weight` — `source` and
`target` are accepted and ignored exactly as in the source;
`base_weight = 1.0` and `frequency_multiplier = 1.0 + log(1 + count)`
(the float literals are written as the real number `1`). -/
noncomputable def calculate_relationship_weight (source target : String)
    (interaction_count : Nat) (relationship_type : String) : ℝ :=
  1 * (typeMultiplier relationship_type : ℝ) *
    (1 + Real.log (1 + (interaction_count : ℝ)))

def type_importance : List (String × ℚ) :=
  [("person", 1.5), ("file", 1.3), ("commit", 1.0), ("module", 1.4), ("decision", 1.2)]

/-- `KnowledgeGraphBuilder.compute_node_importance`. -/
noncomputable def compute_node_importance (node_id : String) (connections : Nat)
    (node_type : String) : ℝ :=
  ((alookup node_type type_importance).getD 1.0 : ℝ) *
    (1 + Real.log (1 + (connections : ℝ)))

/-! ## Graph data structures

Python stores nodes as per-type dicts; they are modelled by one record
with per-type fields left at their defaults when a type does not set them.
The `importance` float (`math.log`-based) is derived from `type` and
`connections` by `compute_node_importance` above instead of being stored,
to keep the payload computable; likewise a link stores the
`interaction_count` passed to `calculate_relationship_weight`, from which
its float `value` is derived. -/

structure Node where
  id : String
  group : Nat
  label : String
  type : String
  commitsCount : Nat := 0
  filesCount : Nat := 0
  full_text : String := ""
  sha : String := ""
  full_sha : String := ""
  message : String := ""
  date : String := ""
  url : String := ""
  path : String := ""
  extension : String := ""
  contributorsCount : Nat := 0
  connections : Nat := 0
  deriving Repr, DecidableEq

structure Link where
  source : String
  target : String
  type : String
  interaction_count : Nat
  deriving Repr, DecidableEq

/-- The float `value` field of a link. -/
noncomputable def Link.value (l : Link) : ℝ :=
  calculate_relationship_weight l.source l.target l.interaction_count l.type

structure CommitData where
  sha : String
  full_sha : String
  message : String
  author : Option String
  date : String
  url : String
  files : List String
  deriving Repr, DecidableEq

/-- `self.files[path]`: a contributor entry of `none` records the Python
`None` that line 426 of the source adds unconditionally. -/
structure FileData where
  path : String
  contributors : List (Option String)
  commits : List String
  deriving Repr, DecidableEq

structure Stats where
  people : Nat
  modules : Nat
  decisions : Nat
  commits : Nat
  files : Nat
  deriving Repr, DecidableEq

/-- The JSON payload.  `stats = none` / `error = none` model an absent key. -/
structure Payload where
  nodes : List Node
  links : List Link
  stats : Option Stats
  error : Option String
  branch : String
  repository : String
  deriving Repr, DecidableEq

/-- The mutable builder state accumulated over the document loop.
`person_to_files` and the two write-only maps `commit_to_files` /
`file_contributors` are carried for fidelity (`person_to_files` is never
written in the source, so person nodes always report `files = 0`;
the other two are never read). -/
structure BuildState where
  author_map : List (String × String) := []
  people : List String := []
  modules : List String := []
  decisions : List String := []
  commits : List CommitData := []
  files : List (String × FileData) := []
  person_to_modules : List (String × List String) := []
  person_to_decisions : List (String × List String) := []
  person_to_commits : List (String × List CommitData) := []
  person_to_files : List (String × List String) := []
  module_to_decisions : List (String × List String) := []
  commit_to_files : List (String × List String) := []
  file_contributors : List (String × List String) := []
  deriving Repr, DecidableEq

/-- `defaultdict(set)` element insertion. -/
def addToSetMap (m : List (String × List String)) (k v : String) :
    List (String × List String) :=
  aupdate m k (fun l => insertDedup l v) []

/-- `defaultdict(list)` append. -/
def appendToListMap {α : Type} (m : List (String × List α)) (k : String) (v : α) :
    List (String × List α) :=
  aupdate m k (fun l => l ++ [v]) []

/-- Deterministic model of CPython's salted `hash(str)`; the program only
relies on the hash being deterministic within a run. -/
def pyHash (s : String) : Nat :=
  s.data.foldl (fun h c => h * 31 + c.toNat) 5381

/-! ## The document loop (`build_graph` lines 360–438) -/

/-- The `Files: ` trailer parse plus the regex scan, in the order of the
source (`set` modelled as ordered dedup list). -/
def commitFiles (text : String) : List String :=
  let fromTrailer :=
    if substrB "Files: " text then
      (((strSplit ((strSplit text "Files: ").getLastD "") ",").map strip).filter
        (fun f => f ≠ "")).foldl insertDedup []
    else []
  (extract_files_from_text text).foldl insertDedup fromTrailer

/-- One iteration of the `for file_path in files_in_commit:` loop of the
commit block (source lines 413–427). -/
def processCommitFile (author : Option String) (commit_sha : String)
    (st : BuildState) (file_path : String) : BuildState :=
  if file_path ≠ "" then
    let st := { st with commit_to_files := addToSetMap st.commit_to_files commit_sha file_path }
    let st :=
      match author with
      | some a => { st with file_contributors := addToSetMap st.file_contributors file_path a }
      | none => st
    let st :=
      if (alookup file_path st.files).isSome then st
      else { st with files := st.files ++
              [(file_path, { path := file_path, contributors := [], commits := [] })] }
    { st with files := st.files.map (fun p =>
        if p.1 = file_path then
          (p.1, { p.2 with
                  contributors := insertDedup p.2.contributors author,
                  commits := p.2.commits ++ [commit_sha] })
        else p) }
  else st

/-- The commit sha parsed from the metadata url (source line 382). -/
def commitSha (i : Nat) (d : Doc) : String :=
  let url := d.meta.url.getD ""
  if url ≠ "" then (strSplit url "/").getLastD "" else "commit_" ++ toString i

/-- The `if doc_type == 'commit':` block (source lines 380–427); `author` is
the already-normalized author of the document. -/
def processCommit (st : BuildState) (i : Nat) (d : Doc) (author : Option String) :
    BuildState :=
  let url := d.meta.url.getD ""
  let commit_sha := commitSha i d
  let commit_message :=
    if d.text ≠ "" then strReplace ((strSplit d.text "\n").headD "") "Commit: " ""
    else "Unknown commit"
  let files_in_commit := commitFiles d.text
  let commit_data : CommitData :=
    { sha := if 7 < commit_sha.length then strTake commit_sha 7 else commit_sha
      full_sha := commit_sha
      message := strTake commit_message 100
      author := author
      date := d.meta.date
      url := url
      files := files_in_commit }
  let st := { st with commits := st.commits ++ [commit_data] }
  let st :=
    match author with
    | some a => { st with person_to_commits := appendToListMap st.person_to_commits a commit_data }
    | none => st
  files_in_commit.foldl (processCommitFile author commit_sha) st

/-- Author normalization plus the `if author:` person insertion (source
lines 361–369); returns the updated state and the normalized author. -/
def updAuthorPeople (st : BuildState) (raw_author : String) :
    BuildState × Option String :=
  let r := normalize_author (some raw_author) st.author_map
  let st := { st with author_map := r.2 }
  match r.1 with
  | some a => ({ st with people := insertDedup st.people a }, some a)
  | none => (st, none)

/-- `self.modules.update(modules)` (source line 373). -/
def updModules (st : BuildState) (mods : List String) : BuildState :=
  { st with modules := mods.foldl insertDedup st.modules }

/-- `self.decisions.update(decisions)` (source line 377). -/
def updDecisions (st : BuildState) (decs : List String) : BuildState :=
  { st with decisions := decs.foldl insertDedup st.decisions }

/-- The `if author:` relationship updates (source lines 430–434). -/
def updPersonMaps (st : BuildState) (author : Option String)
    (mods decs : List String) : BuildState :=
  match author with
  | some a =>
    let st := { st with
      person_to_modules :=
        mods.foldl (fun m mo => addToSetMap m a mo) st.person_to_modules }
    { st with
      person_to_decisions :=
        decs.foldl (fun m de => addToSetMap m a de) st.person_to_decisions }
  | none => st

/-- The module→decision updates (source lines 436–438). -/
def updModuleDecisions (st : BuildState) (mods decs : List String) : BuildState :=
  { st with
    module_to_decisions :=
      mods.foldl (fun acc mo =>
        decs.foldl (fun acc2 de => addToSetMap acc2 mo de) acc)
        st.module_to_decisions }

/-- One iteration of `for i, (doc, metadata) in enumerate(...)`. -/
def processDoc (st : BuildState) (i : Nat) (d : Doc) : BuildState :=
  let raw_author := d.meta.author.getD "Unknown"
  let r := updAuthorPeople st raw_author
  let st := r.1
  let author := r.2
  let modules := extract_modules d.text
  let st := updModules st modules
  let decisions := extract_decisions d.text d.meta
  let st := updDecisions st decisions
  let st := if d.meta.type = "commit" then processCommit st i d author else st
  let st := updPersonMaps st author modules decisions
  updModuleDecisions st modules decisions

def processAll (docs : List Doc) : BuildState :=
  (docs.enum).foldl (fun st idoc => processDoc st idoc.1 idoc.2) {}

/-! ## Node construction (`build_graph` lines 440–515)

`self.nodes` is a Python dict keyed by node id; modelled as an
insertion-ordered association list where re-inserting an existing key
overwrites in place. -/

def dictInsert : List (String × Node) → String → Node → List (String × Node)
  | [], k, v => [(k, v)]
  | (k', v') :: rest, k, v =>
    if k' = k then (k, v) :: rest else (k', v') :: dictInsert rest k v

/-- Generic fold of `dictInsert` insertions over a list. -/
def insFold {β : Type} (f : β → String) (g : β → Node) (L : List β)
    (ns : List (String × Node)) : List (String × Node) :=
  L.foldl (fun ns b => dictInsert ns (f b) (g b)) ns

/-- Stable insertion for `sorted(..., key=..., reverse=True)`: descending by
key, ties kept in original order (Timsort is stable). -/
def insertDescStable {α : Type} (key : α → Nat) (x : α) : List α → List α
  | [] => [x]
  | y :: ys => if key x ≤ key y then y :: insertDescStable key x ys else x :: y :: ys

def sortDescStable {α : Type} (key : α → Nat) (l : List α) : List α :=
  l.foldl (fun acc x => insertDescStable key x acc) []

/-- `sorted(self.files.items(), key=lambda x: len(x[1]['commits']), reverse=True)[:25]`. -/
def sortedFiles (st : BuildState) : List (String × FileData) :=
  (sortDescStable (fun p => p.2.commits.length) st.files).take 25

def personNode (st : BuildState) (person : String) : Node :=
  { id := "person-" ++ person
    group := 1
    label := "@" ++ person
    type := "person"
    commitsCount := ((alookup person st.person_to_commits).getD []).length
    filesCount := ((alookup person st.person_to_files).getD []).length }

def moduleNode (m : String) : Node :=
  { id := "module-" ++ m, group := 2, label := m, type := "module" }

def decisionNode (i : Nat) (decision : String) : Node :=
  { id := "decision-" ++ toString i
    group := 3
    label := if 60 < decision.length then strTake decision 60 ++ "..." else decision
    type := "decision"
    full_text := decision }

def commitNode (c : CommitData) : Node :=
  { id := "commit-" ++ c.sha
    group := 4
    label := c.sha ++ ": " ++ strTake c.message 40
    type := "commit"
    sha := c.sha
    full_sha := c.full_sha
    message := c.message
    date := c.date
    url := c.url
    filesCount := c.files.length }

def fileId (file_path : String) : String :=
  "file-" ++ toString (pyHash file_path % 100000)

def fileNode (file_path : String) (fd : FileData) : Node :=
  let filename :=
    if substrB "/" file_path then (strSplit file_path "/").getLastD "" else file_path
  let extension :=
    if substrB "." filename then (strSplit filename ".").getLastD "" else ""
  { id := fileId file_path
    group := 5
    label := filename
    type := "file"
    path := file_path
    extension := extension
    contributorsCount := fd.contributors.length
    commitsCount := fd.commits.length }

def mkNodes (st : BuildState) : List (String × Node) :=
  let ns := insFold (fun p => "person-" ++ p) (personNode st) st.people []
  let ns := insFold (fun m => "module-" ++ m) moduleNode st.modules ns
  let ns := insFold (fun idp : Nat × String => "decision-" ++ toString idp.1)
    (fun idp => decisionNode idp.1 idp.2) ((st.decisions.take 15).enum) ns
  let ns := insFold (fun c : CommitData => "commit-" ++ c.sha) commitNode
    (st.commits.take 30) ns
  insFold (fun p : String × FileData => fileId p.1) (fun p => fileNode p.1 p.2)
    (sortedFiles st) ns

/-! ## Link construction (`build_graph` lines 517–631) -/

def usesLinks (st : BuildState) : List Link :=
  st.person_to_modules.foldl (fun acc pm =>
    acc ++ pm.2.map (fun m =>
      { source := "person-" ++ pm.1, target := "module-" ++ m,
        type := "uses", interaction_count := 1 })) []

/-- Person→decision links: the person's decision set is truncated to 15, the
membership test is against the *same ordered view* `self.decisions` that
node creation used (`list(...)[:15]`), and the index is taken in the full
ordered view (equal to the index in its first 15 elements for a member). -/
def decidedLinks (st : BuildState) : List Link :=
  st.person_to_decisions.foldl (fun acc pd =>
    acc ++ (pd.2.take 15).filterMap (fun d =>
      if d ∈ st.decisions.take 15 then
        some { source := "person-" ++ pd.1,
               target := "decision-" ++ toString (indexOfD d st.decisions),
               type := "decided", interaction_count := 1 }
      else none)) []

def relatedLinks (st : BuildState) : List Link :=
  st.module_to_decisions.foldl (fun acc md =>
    acc ++ md.2.filterMap (fun d =>
      if d ∈ st.decisions.take 15 then
        some { source := "module-" ++ md.1,
               target := "decision-" ++ toString (indexOfD d st.decisions),
               type := "related", interaction_count := 1 }
      else none)) []

def authoredLinks (st : BuildState) (nodes : List (String × Node)) : List Link :=
  st.person_to_commits.foldl (fun acc pc =>
    acc ++ (pc.2.take 30).filterMap (fun c =>
      if (alookup ("commit-" ++ c.sha) nodes).isSome then
        some { source := "person-" ++ pc.1, target := "commit-" ++ c.sha,
               type := "authored", interaction_count := pc.2.length }
      else none)) []

def modifiedLinks (st : BuildState) (nodes : List (String × Node)) : List Link :=
  (st.commits.take 30).foldl (fun acc c =>
    if (alookup ("commit-" ++ c.sha) nodes).isSome then
      acc ++ c.files.filterMap (fun fp =>
        if (alookup fp (sortedFiles st)).isSome then
          if (alookup (fileId fp) nodes).isSome then
            some { source := "commit-" ++ c.sha, target := fileId fp,
                   type := "modified", interaction_count := 1 }
          else none
        else none)
    else acc) []

/-- Person→file links.  `if contributor:` skips the `None` contributor; a
stored `some` contributor is never the empty string (it is a
`normalize_author` result), so truthiness coincides with `isSome`. -/
def contributedLinks (st : BuildState) (nodes : List (String × Node)) : List Link :=
  (sortedFiles st).foldl (fun acc fpd =>
    if (alookup (fileId fpd.1) nodes).isSome then
      acc ++ fpd.2.contributors.filterMap (fun contributor =>
        match contributor with
        | none => none
        | some p =>
          let personShas := ((alookup p st.person_to_commits).getD []).map (fun c => c.full_sha)
          some { source := "person-" ++ p, target := fileId fpd.1,
                 type := "contributed",
                 interaction_count := (fpd.2.commits.filter (fun c => c ∈ personShas)).length })
    else acc) []

def mkLinks (st : BuildState) (nodes : List (String × Node)) : List Link :=
  usesLinks st ++ decidedLinks st ++ relatedLinks st
    ++ authoredLinks st nodes ++ modifiedLinks st nodes ++ contributedLinks st nodes

/-! ## Payload assembly (`build_graph` lines 633–670) -/

def connectionsOf (links : List Link) (node_id : String) : Nat :=
  (links.filter (fun l => l.source = node_id || l.target = node_id)).length

/-- The final pass that stores `connections` (and, in Python, the derived
float `importance = compute_node_importance(...)`) on every node. -/
def annotate (nodes : List (String × Node)) (links : List Link) : List Node :=
  nodes.map (fun p => { p.2 with connections := connectionsOf links p.1 })

/-- `KnowledgeGraphBuilder.build_graph` on an already-fetched document list;
the empty-store early return (lines 339–346) carries no `stats` key. -/
def build_graph (branch repository : String) (docs : List Doc) : Payload :=
  if docs.isEmpty then
    { nodes := [], links := [], stats := none, error := none,
      branch := branch, repository := repository }
  else
    let st := processAll docs
    let nodes := mkNodes st
    let links := mkLinks st nodes
    { nodes := annotate nodes links
      links := links
      stats := some
        { people := st.people.length
          modules := st.modules.length
          decisions := st.decisions.length
          commits := st.commits.length
          files := st.files.length }
      error := none
      branch := branch
      repository := repository }

/-- The `try/except` boundary of `build_graph`: a store-level failure (the
one genuinely fallible step of the pipeline, modelled with `Except`) is
converted into the error payload of lines 660–670; the rest of the
pipeline is total. -/
def build_graph_top (branch repository : String) (store : Except String (List Doc)) :
    Payload :=
  match store with
  | .error e =>
    { nodes := [], links := [], stats := none, error := some e,
      branch := branch, repository := repository }
  | .ok docs => build_graph branch repository docs

/-! ## Decision engine (`backend/agents/decision_engine.py`, `analyze_urgency`)

Floats are idealised as rationals (all the constants involved are exact
decimals).  The reported `urgency_score` is modelled before the final
`round(_, 2)` — every reachable value is already an exact multiple of
`0.05`, which the claims do not distinguish from its rounding. -/

/-- A GitHub urgent item; only its `priority` field is read. -/
structure GithubItem where
  priority : String := "medium"
  deriving Repr, DecidableEq

/-- `agent_data.get('github', {})` etc.: `none` models a missing source,
whose empty dict has a falsy `success`. -/
structure GithubData where
  success : Bool
  urgent_items : List GithubItem := []
  deriving Repr, DecidableEq

structure SlackData where
  success : Bool
  action_items : List String := []
  deriving Repr, DecidableEq

structure NotionData where
  success : Bool
  priority_changes : List String := []
  deriving Repr, DecidableEq

structure AgentData where
  github : Option GithubData := none
  slack : Option SlackData := none
  notion : Option NotionData := none
  deriving Repr, DecidableEq

structure UrgencyAnalysis where
  urgency_score : ℚ
  urgency_level : String
  urgent_items_count : Nat
  urgent_items : List (String × String)
  recommendation : String
  deriving Repr, DecidableEq

/-- `DecisionEngine._get_urgency_recommendation`. -/
def get_urgency_recommendation (level : String) : String :=
  if level = "critical" then
    "⚠️ IMMEDIATE ACTION REQUIRED: Multiple critical items need attention. Prioritize urgent GitHub issues and Slack action items."
  else if level = "high" then
    "⚡ HIGH PRIORITY: Several items require prompt attention. Review and address within 24 hours."
  else if level = "medium" then
    "📋 MODERATE ACTIVITY: Some items need attention. Plan to address in the next few days."
  else
    "✅ LOW URGENCY: No critical items. Continue with planned work."

/-- The level if-chain of `analyze_urgency` (lines 82–89). -/
def urgencyLevel (urgency_score : ℚ) : String :=
  if 7 / 10 ≤ urgency_score then "critical"
  else if 4 / 10 ≤ urgency_score then "high"
  else if 2 / 10 ≤ urgency_score then "medium"
  else "low"

/-- The items contributed by the GitHub block (lines 41–52); empty when the
source is missing or unsuccessful. -/
def githubItems (agent_data : AgentData) : List (String × String) :=
  match agent_data.github with
  | some g =>
    if g.success then g.urgent_items.map (fun i => ("github", i.priority)) else []
  | none => []

/-- The score contributed by the GitHub block:
`min(high_priority * 0.2, 0.5)` when the source succeeded, else nothing. -/
def githubContrib (agent_data : AgentData) : ℚ :=
  match agent_data.github with
  | some g =>
    if g.success then
      min (((g.urgent_items.filter (fun i => i.priority = "high")).length : ℚ) * (2 / 10))
        (5 / 10)
    else 0
  | none => 0

def slackItems (agent_data : AgentData) : List (String × String) :=
  match agent_data.slack with
  | some s =>
    if s.success then s.action_items.map (fun _ => ("slack", "medium")) else []
  | none => []

def slackContrib (agent_data : AgentData) : ℚ :=
  match agent_data.slack with
  | some s =>
    if s.success then min ((s.action_items.length : ℚ) * (1 / 10)) (3 / 10) else 0
  | none => 0

def notionItems (agent_data : AgentData) : List (String × String) :=
  match agent_data.notion with
  | some n =>
    if n.success then n.priority_changes.map (fun _ => ("notion", "high")) else []
  | none => []

def notionContrib (agent_data : AgentData) : ℚ :=
  match agent_data.notion with
  | some n =>
    if n.success then min ((n.priority_changes.length : ℚ) * (15 / 100)) (2 / 10) else 0
  | none => 0

/-- `DecisionEngine.analyze_urgency`.  The sequential accumulation of
`urgent_items` / `urgency_score` over the three per-source blocks is
rendered with one items/score component per source (a skipped source
contributes `[]` and `0`). -/
def analyze_urgency (agent_data : AgentData) : UrgencyAnalysis :=
  let urgent_items := githubItems agent_data ++ slackItems agent_data ++ notionItems agent_data
  let score :=
    0 + githubContrib agent_data + slackContrib agent_data + notionContrib agent_data
  let urgency_score := min score 1
  let urgency_level := urgencyLevel urgency_score
  { urgency_score := urgency_score
    urgency_level := urgency_level
    urgent_items_count := urgent_items.length
    urgent_items := urgent_items.take 10
    recommendation := get_urgency_recommendation urgency_level }

/-! ## Concrete document lists used by counterexamples and witnesses -/

/-- A minimal commit document with the given url and author. -/
def c1Doc (u a : String) : Doc :=
  { text := ""
    meta := { type := "commit", author := some a, url := some u, date := "2024-01-01" } }

/-- 31 commit documents: alice authors the first 30 (the first with full sha
`abcdefg1`, short sha `abcdefg`), bob authors the 31st with full sha
`abcdefg9`, whose short sha collides with the first commit's. -/
def c1docs : List Doc :=
  c1Doc "x/abcdefg1" "alice" ::
    ((List.range 29).map (fun i => c1Doc ("x/k" ++ toString i) "alice") ++
      [c1Doc "x/abcdefg9" "bob"])

/-- A single commit document touching one file, used as a concrete graph. -/
def c1wDoc : Doc :=
  { text := "Commit: Added caching\nFiles: cache.py"
    meta := { type := "commit", author := some "bob",
              url := some "https://x/abc1234def", date := "2024-01-02" } }

/-- Number of node entries of a given type in a node dictionary. -/
def nodeTypeCount (ns : List (String × Node)) (t : String) : Nat :=
  ns.countP (fun e => e.2.type == t)

/-- The number of *distinct* commit shas recorded for a file.  Modelled from
the spec's words, for comparison (claim C5): the code ranks files by
`len(file_data['commits'])`, one entry per commit *document*, not by this
distinct count. -/
def claimDistinctCommits (fd : FileData) : Nat :=
  (fd.commits.foldl insertDedup []).length

/-- `"g1.c,g2.c,...,g25.c"`. -/
def c5gFiles : String :=
  String.intercalate "," ((List.range 25).map (fun i => "g" ++ toString (i + 1) ++ ".c"))

/-- A commit document touching only `dup.c`. -/
def c5DupDoc (u : String) : Doc :=
  { text := "Files: dup.c"
    meta := { type := "commit", author := some "ann", url := some u, date := "" } }

/-- A commit document touching `g1.c` … `g25.c`. -/
def c5GDoc (u : String) : Doc :=
  { text := "Files: " ++ c5gFiles
    meta := { type := "commit", author := some "ann", url := some u, date := "" } }

/-- Three documents of one commit (sha `shaA`) touching `dup.py`, then two
documents of two distinct commits each touching `g1.c` … `g25.c`. -/
def c5docs : List Doc :=
  [c5DupDoc "x/shaA", c5DupDoc "x/shaA", c5DupDoc "x/shaA",
   c5GDoc "x/shaB", c5GDoc "x/shaC"]

/-- A commit document whose author normalizes to `None`. -/
def c10Doc : Doc :=
  { text := "Files: a.c"
    meta := { type := "commit", author := none, url := some "x/c10sha", date := "" } }

/-- The number of successful-GitHub urgent items with priority `"high"`
(zero when the source is missing or unsuccessful). -/
def githubHighCount (a : AgentData) : Nat :=
  match a.github with
  | some g =>
    if g.success then (g.urgent_items.filter (fun i => i.priority = "high")).length else 0
  | none => 0

def slackActionCount (a : AgentData) : Nat :=
  match a.slack with
  | some s => if s.success then s.action_items.length else 0
  | none => 0

def notionChangeCount (a : AgentData) : Nat :=
  match a.notion with
  | some n => if n.success then n.priority_changes.length else 0
  | none => 0

/-- The decision label built for an accepted document, exactly as in the
source: type prefix, first non-blank line truncated to 80 characters
(with the source's fallback title for an all-blank text, a case the gate
cannot in fact reach because a matched keyword is non-blank), and the
comma-joined matched categories in brackets. -/
def decisionLabel (text : String) (metadata : Metadata) : String :=
  if metadata.type = "pull_request" then
    "PR: " ++ decisionTitle text "PR Decision" ++ " [" ++ categoryStr text ++ "]"
  else
    "Issue: " ++ decisionTitle text "Issue Decision" ++ " [" ++ categoryStr text ++ "]"

/-- A technology variant that `extract_modules` matches but then discards:
the word-boundary search succeeds on the lowered text and
`_is_false_positive_context` flags it. -/
def discardedVariation (text v : String) : Bool :=
  variationFound (strLower text) v && is_false_positive_context (strLower text) v

/-- Modelled from the spec's words, for comparison (claim C7): a match is
discarded iff it appears only inside URL/path-like substrings (every
occurrence's surrounding 10 characters contain a `/`) and it is *not*
accompanied elsewhere in the text — anywhere in the text — by one of the
fixed action verbs. -/
def claimDiscardedVariation (text v : String) : Prop :=
  findWB (strLower text).data v.data ≠ [] ∧
  (∀ st ∈ findWB (strLower text).data v.data,
    ('/' : Char) ∈ ctxSlice (strLower text).data st v.length 10) ∧
  ¬ ∃ ind ∈ valid_indicators, substrB ind (strLower text) = true

/-! # The builder-state invariant

Facts maintained by the document loop that the node/link phases rely on:
the author map stores, under each lowercased key, an original-cased name
lowering to that key; every person is registered in the author map; and
every key/member of the relationship maps is drawn from the corresponding
entity set. -/

def MapWF (m : List (String × String)) : Prop := ∀ kv ∈ m, strLower kv.2 = kv.1

def PeopleReg (st : BuildState) : Prop :=
  ∀ p ∈ st.people, alookup (strLower p) st.author_map = some p

def RelInvC (people modules decisions : List String)
    (p2m p2d m2d : List (String × List String))
    (p2c : List (String × List CommitData))
    (files : List (String × FileData)) : Prop :=
  (∀ pm ∈ p2m, pm.1 ∈ people ∧ ∀ m ∈ pm.2, m ∈ modules) ∧
  (∀ pd ∈ p2d, pd.1 ∈ people ∧ ∀ d ∈ pd.2, d ∈ decisions) ∧
  (∀ md ∈ m2d, md.1 ∈ modules ∧ ∀ d ∈ md.2, d ∈ decisions) ∧
  (∀ pc ∈ p2c, pc.1 ∈ people) ∧
  (∀ f ∈ files, ∀ p : String, some p ∈ f.2.contributors → p ∈ people)

def RelInv (st : BuildState) : Prop :=
  RelInvC st.people st.modules st.decisions st.person_to_modules
    st.person_to_decisions st.module_to_decisions st.person_to_commits st.files

def StInv (st : BuildState) : Prop := MapWF st.author_map ∧ PeopleReg st ∧ RelInv st

def keysNodup (ns : List (String × Node)) : Prop := (ns.map (fun e => e.1)).Nodup

/-! # Generic lemmas about the container primitives -/

theorem mem_insertDedup {α : Type} [DecidableEq α] {l : List α} {x y : α} :
    y ∈ insertDedup l x ↔ y ∈ l ∨ y = x := by
  unfold insertDedup
  split_ifs with h
  · constructor
    · exact Or.inl
    · rintro (h' | rfl)
      · exact h'
      · exact h
  · simp [List.mem_append]

theorem mem_insertDedup_of_mem {α : Type} [DecidableEq α] {l : List α} {x y : α}
    (h : y ∈ l) : y ∈ insertDedup l x :=
  mem_insertDedup.mpr (Or.inl h)

theorem self_mem_insertDedup {α : Type} [DecidableEq α] (l : List α) (x : α) :
    x ∈ insertDedup l x :=
  mem_insertDedup.mpr (Or.inr rfl)

theorem mem_foldl_insertDedup {α : Type} [DecidableEq α] (xs : List α) (l : List α) (y : α) :
    y ∈ xs.foldl insertDedup l ↔ y ∈ l ∨ y ∈ xs := by
  induction xs generalizing l with
  | nil => simp
  | cons x xs ih =>
    simp only [List.foldl_cons, ih, mem_insertDedup, List.mem_cons]
    tauto

theorem alookup_mem {α : Type} {m : List (String × α)} {k : String} {v : α}
    (h : alookup k m = some v) : (k, v) ∈ m := by
  induction m with
  | nil => simp [alookup] at h
  | cons e rest ih =>
    rw [show alookup k (e :: rest) = if e.1 = k then some e.2 else alookup k rest from rfl] at h
    split_ifs at h with he
    · cases h; cases e; cases he; simp
    · exact List.mem_cons_of_mem _ (ih h)

theorem alookup_append {α : Type} (k : String) (m₁ m₂ : List (String × α)) :
    alookup k (m₁ ++ m₂) =
      match alookup k m₁ with
      | some v => some v
      | none => alookup k m₂ := by
  induction m₁ with
  | nil => simp [alookup]
  | cons e rest ih =>
    by_cases he : e.1 = k
    · cases e; simp_all [alookup]
    · cases e; simp_all [alookup]

theorem aupdate_forall {α : Type} (P : String × α → Prop) {m : List (String × α)}
    {k : String} {f : α → α} {d : α}
    (hm : ∀ e ∈ m, P e) (hd : P (k, f d)) (hf : ∀ v, P (k, v) → P (k, f v)) :
    ∀ e ∈ aupdate m k f d, P e := by
  induction m with
  | nil => intro e he; simp only [aupdate, List.mem_singleton] at he; subst he; exact hd
  | cons e₀ rest ih =>
    intro e he
    rw [show aupdate (e₀ :: rest) k f d =
      if e₀.1 = k then (k, f e₀.2) :: rest else e₀ :: aupdate rest k f d from by
        cases e₀; rfl] at he
    split_ifs at he with h₀
    · rcases List.mem_cons.mp he with rfl | hmem
      · refine hf e₀.2 ?_
        have := hm e₀ (List.mem_cons_self _ _)
        cases e₀; cases h₀; exact this
      · exact hm _ (List.mem_cons_of_mem _ hmem)
    · rcases List.mem_cons.mp he with rfl | hmem
      · exact hm _ (List.mem_cons_self _ _)
      · exact ih (fun e' he' => hm e' (List.mem_cons_of_mem _ he')) e hmem

theorem mem_foldl_append {α β : Type} (h : β → List α) (L : List β) (init : List α) (y : α) :
    y ∈ L.foldl (fun acc x => acc ++ h x) init ↔ y ∈ init ∨ ∃ x ∈ L, y ∈ h x := by
  induction L generalizing init with
  | nil => simp
  | cons b L ih =>
    simp only [List.foldl_cons, ih, List.mem_append, List.mem_cons]
    constructor
    · rintro ((hy | hy) | ⟨x, hx, hy⟩)
      · exact Or.inl hy
      · exact Or.inr ⟨b, Or.inl rfl, hy⟩
      · exact Or.inr ⟨x, Or.inr hx, hy⟩
    · rintro (hy | ⟨x, (rfl | hx), hy⟩)
      · exact Or.inl (Or.inl hy)
      · exact Or.inl (Or.inr hy)
      · exact Or.inr ⟨x, hx, hy⟩

theorem mem_foldl_append_ite {α β : Type} (cond : β → Bool) (h : β → List α)
    (L : List β) (init : List α) (y : α) :
    y ∈ L.foldl (fun acc x => if cond x then acc ++ h x else acc) init ↔
      y ∈ init ∨ ∃ x ∈ L, cond x = true ∧ y ∈ h x := by
  induction L generalizing init with
  | nil => simp
  | cons b L ih =>
    simp only [List.foldl_cons, ih]
    by_cases hb : cond b
    · simp only [hb, if_true, List.mem_append, List.mem_cons]
      constructor
      · rintro ((hy | hy) | ⟨x, hx, hc, hy⟩)
        · exact Or.inl hy
        · exact Or.inr ⟨b, Or.inl rfl, hb, hy⟩
        · exact Or.inr ⟨x, Or.inr hx, hc, hy⟩
      · rintro (hy | ⟨x, (rfl | hx), hc, hy⟩)
        · exact Or.inl (Or.inl hy)
        · exact Or.inl (Or.inr hy)
        · exact Or.inr ⟨x, hx, hc, hy⟩
    · simp only [hb, if_false, List.mem_cons]
      constructor
      · rintro (hy | ⟨x, hx, hc, hy⟩)
        · exact Or.inl hy
        · exact Or.inr ⟨x, Or.inr hx, hc, hy⟩
      · rintro (hy | ⟨x, (rfl | hx), hc, hy⟩)
        · exact Or.inl hy
        · exact absurd hc (by simp [hb])
        · exact Or.inr ⟨x, hx, hc, hy⟩

/-! # Claim theorems -/

/-- C2, counterexample: on an empty store `build_graph` returns *without* a
`stats` key (source lines 339–346 return only nodes/links/branch/repository),
contradicting the claimed `stats: {people:0, modules:0, decisions:0,
commits:0, files:0}` member. -/
theorem C2_counterexample :
    (build_graph "main" "default" []).stats = none ∧
      (build_graph "main" "default" []).stats ≠
        some { people := 0, modules := 0, decisions := 0, commits := 0, files := 0 } := by
  decide

/-- C2 (amended): for a store containing zero documents, `build_graph()`
returns the payload `{nodes: [], links: [], branch, repository}` — with no
`stats` key and no `error` key — and raises no exception (the function is
total on this input and takes the early-return branch). -/
theorem C2_empty_store (branch repository : String) :
    build_graph branch repository [] =
      { nodes := [], links := [], stats := none, error := none,
        branch := branch, repository := repository } := rfl

/-- C8: `build_graph` never raises past its boundary: a failure of the
fallible store fetch (the `try` block's entry) is converted into the
payload `{nodes: [], links: [], error: message, branch, repository}`, and
on every input the payload carries the builder's branch and repository
and is empty whenever an error is reported. -/
theorem C8_error_boundary (branch repository : String) (store : Except String (List Doc)) :
    ((∃ e, store = Except.error e) →
      ∃ e, store = Except.error e ∧
        build_graph_top branch repository store =
          { nodes := [], links := [], stats := none, error := some e,
            branch := branch, repository := repository }) ∧
    (build_graph_top branch repository store).branch = branch ∧
    (build_graph_top branch repository store).repository = repository ∧
    ((build_graph_top branch repository store).error ≠ none →
      (build_graph_top branch repository store).nodes = [] ∧
      (build_graph_top branch repository store).links = []) := by
  rcases store with e | docs
  · exact ⟨fun _ => ⟨e, rfl, rfl⟩, rfl, rfl, fun _ => ⟨rfl, rfl⟩⟩
  · refine ⟨fun h => absurd h (by simp), ?_, ?_, ?_⟩
    · show (build_graph branch repository docs).branch = branch
      unfold build_graph; split_ifs <;> rfl
    · show (build_graph branch repository docs).repository = repository
      unfold build_graph; split_ifs <;> rfl
    · show (build_graph branch repository docs).error ≠ none → _
      intro h
      exfalso
      apply h
      show (build_graph branch repository docs).error = none
      unfold build_graph; split_ifs <;> rfl

/-- C8 witness: the boundary theorem applied to a concrete store failure. -/
theorem C8_witness :
    build_graph_top "main" "default" (Except.error "collection missing") =
      { nodes := [], links := [], stats := none, error := some "collection missing",
        branch := "main", repository := "default" } := by
  rcases (C8_error_boundary "main" "default"
      (Except.error "collection missing")).1 ⟨"collection missing", rfl⟩ with ⟨e, he, hp⟩
  cases he
  exact hp

theorem alookup_cons {α : Type} (k k' : String) (v : α) (rest : List (String × α)) :
    alookup k ((k', v) :: rest) = if k' = k then some v else alookup k rest := rfl

theorem tm_authored : typeMultiplier "authored" = 2 := by
  unfold typeMultiplier type_weights
  rw [alookup_cons, if_pos rfl, Option.getD_some]
  norm_num

theorem tm_contributed : typeMultiplier "contributed" = 3 / 2 := by
  unfold typeMultiplier type_weights
  rw [alookup_cons, if_neg (by decide), alookup_cons, if_pos rfl, Option.getD_some]
  norm_num

theorem tm_modified : typeMultiplier "modified" = 3 / 2 := by
  unfold typeMultiplier type_weights
  rw [alookup_cons, if_neg (by decide), alookup_cons, if_neg (by decide),
    alookup_cons, if_pos rfl, Option.getD_some]
  norm_num

theorem tm_uses : typeMultiplier "uses" = 6 / 5 := by
  unfold typeMultiplier type_weights
  rw [alookup_cons, if_neg (by decide), alookup_cons, if_neg (by decide),
    alookup_cons, if_neg (by decide), alookup_cons, if_pos rfl, Option.getD_some]
  norm_num

theorem tm_decided : typeMultiplier "decided" = 9 / 5 := by
  unfold typeMultiplier type_weights
  rw [alookup_cons, if_neg (by decide), alookup_cons, if_neg (by decide),
    alookup_cons, if_neg (by decide), alookup_cons, if_neg (by decide),
    alookup_cons, if_pos rfl, Option.getD_some]
  norm_num

theorem tm_related : typeMultiplier "related" = 1 := by
  unfold typeMultiplier type_weights
  rw [alookup_cons, if_neg (by decide), alookup_cons, if_neg (by decide),
    alookup_cons, if_neg (by decide), alookup_cons, if_neg (by decide),
    alookup_cons, if_neg (by decide), alookup_cons, if_pos rfl, Option.getD_some]
  norm_num

theorem typeMultiplier_cases (rt : String) :
    typeMultiplier rt =
      if rt = "authored" then 2
      else if rt = "contributed" then 3 / 2
      else if rt = "modified" then 3 / 2
      else if rt = "uses" then 6 / 5
      else if rt = "decided" then 9 / 5
      else 1 := by
  by_cases h₁ : rt = "authored"
  · subst h₁; rw [if_pos rfl, tm_authored]
  rw [if_neg h₁]
  by_cases h₂ : rt = "contributed"
  · subst h₂; rw [if_pos rfl, tm_contributed]
  rw [if_neg h₂]
  by_cases h₃ : rt = "modified"
  · subst h₃; rw [if_pos rfl, tm_modified]
  rw [if_neg h₃]
  by_cases h₄ : rt = "uses"
  · subst h₄; rw [if_pos rfl, tm_uses]
  rw [if_neg h₄]
  by_cases h₅ : rt = "decided"
  · subst h₅; rw [if_pos rfl, tm_decided]
  rw [if_neg h₅]
  unfold typeMultiplier type_weights
  rw [alookup_cons, if_neg (fun h => h₁ h.symm), alookup_cons, if_neg (fun h => h₂ h.symm),
    alookup_cons, if_neg (fun h => h₃ h.symm), alookup_cons, if_neg (fun h => h₄ h.symm),
    alookup_cons, if_neg (fun h => h₅ h.symm), alookup_cons]
  by_cases h₆ : rt = "related"
  · subst h₆; rw [if_pos rfl, Option.getD_some]; norm_num
  · rw [if_neg (fun h => h₆ h.symm)]
    show (alookup rt []).getD 1.0 = 1
    rw [show alookup rt ([] : List (String × ℚ)) = none from rfl, Option.getD_none]
    norm_num

theorem typeMultiplier_pos (rt : String) : 0 < typeMultiplier rt := by
  rw [typeMultiplier_cases]
  split_ifs <;> norm_num

theorem logFactor_pos (n : ℕ) : 0 < 1 + Real.log (1 + (n : ℝ)) := by
  have h : (0 : ℝ) ≤ Real.log (1 + (n : ℝ)) :=
    Real.log_nonneg (le_add_of_nonneg_right (Nat.cast_nonneg n))
  linarith

/-- C6: `calculate_relationship_weight` equals
`1.0 * multiplier(type) * (1 + ln(1 + n))` with the multiplier table
authored=2.0, decided=1.8, contributed=1.5, modified=1.5, uses=1.2,
related=1.0 and default 1.0 for every unlisted type; for every
relationship type the weight is monotonically non-decreasing in the
interaction count, and for every fixed count the weights are ordered
authored > decided > contributed = modified > uses > related. -/
theorem C6_relationship_weight :
    (∀ source target rt n, calculate_relationship_weight source target n rt =
        1 * (typeMultiplier rt : ℝ) * (1 + Real.log (1 + (n : ℝ)))) ∧
    (∀ rt, typeMultiplier rt =
      if rt = "authored" then 2
      else if rt = "decided" then 9 / 5
      else if rt = "contributed" then 3 / 2
      else if rt = "modified" then 3 / 2
      else if rt = "uses" then 6 / 5
      else 1) ∧
    (∀ source target rt n m, n ≤ m →
      calculate_relationship_weight source target n rt ≤
        calculate_relationship_weight source target m rt) ∧
    (∀ source target n,
      calculate_relationship_weight source target n "related" <
        calculate_relationship_weight source target n "uses" ∧
      calculate_relationship_weight source target n "uses" <
        calculate_relationship_weight source target n "contributed" ∧
      calculate_relationship_weight source target n "contributed" =
        calculate_relationship_weight source target n "modified" ∧
      calculate_relationship_weight source target n "modified" <
        calculate_relationship_weight source target n "decided" ∧
      calculate_relationship_weight source target n "decided" <
        calculate_relationship_weight source target n "authored") := by
  refine ⟨fun _ _ _ _ => rfl, ?_, ?_, ?_⟩
  · intro rt
    rw [typeMultiplier_cases]
    split_ifs <;> simp_all
  · intro source target rt n m hnm
    unfold calculate_relationship_weight
    have hmul : (0 : ℝ) ≤ (typeMultiplier rt : ℝ) := by
      exact_mod_cast (typeMultiplier_pos rt).le
    have hlog : Real.log (1 + (n : ℝ)) ≤ Real.log (1 + (m : ℝ)) := by
      have h1 : (0 : ℝ) < 1 + (n : ℝ) := by positivity
      have h2 : (1 : ℝ) + (n : ℝ) ≤ 1 + (m : ℝ) := by
        have : (n : ℝ) ≤ (m : ℝ) := by exact_mod_cast hnm
        linarith
      exact Real.log_le_log h1 h2
    nlinarith
  · intro source target n
    have hF := logFactor_pos n
    unfold calculate_relationship_weight
    rw [tm_related, tm_uses, tm_contributed, tm_modified, tm_decided, tm_authored]
    push_cast
    refine ⟨by nlinarith, by nlinarith, by ring, by nlinarith, by nlinarith⟩

/-- C6 witness: the monotonicity clause applied at a concrete pair of
interaction counts. -/
theorem C6_witness :
    calculate_relationship_weight "person-a" "module-b" 1 "authored" ≤
      calculate_relationship_weight "person-a" "module-b" 5 "authored" :=
  C6_relationship_weight.2.2.1 "person-a" "module-b" "authored" 1 5 (by decide)

theorem zero_cap_g : ((0 : ℚ) * (2 / 10)) ⊓ (5 / 10) = 0 := by
  rw [zero_mul]; exact min_eq_left (by norm_num)

theorem zero_cap_s : ((0 : ℚ) * (1 / 10)) ⊓ (3 / 10) = 0 := by
  rw [zero_mul]; exact min_eq_left (by norm_num)

theorem zero_cap_n : ((0 : ℚ) * (15 / 100)) ⊓ (2 / 10) = 0 := by
  rw [zero_mul]; exact min_eq_left (by norm_num)

theorem githubContrib_eq (a : AgentData) :
    githubContrib a = min ((githubHighCount a : ℚ) * (2 / 10)) (5 / 10) := by
  unfold githubContrib githubHighCount
  rcases a.github with _ | g
  · rw [Nat.cast_zero, zero_cap_g]
  · dsimp only
    split_ifs
    · rfl
    · rw [Nat.cast_zero, zero_cap_g]

theorem slackContrib_eq (a : AgentData) :
    slackContrib a = min ((slackActionCount a : ℚ) * (1 / 10)) (3 / 10) := by
  unfold slackContrib slackActionCount
  rcases a.slack with _ | s
  · rw [Nat.cast_zero, zero_cap_s]
  · dsimp only
    split_ifs
    · rfl
    · rw [Nat.cast_zero, zero_cap_s]

theorem notionContrib_eq (a : AgentData) :
    notionContrib a = min ((notionChangeCount a : ℚ) * (15 / 100)) (2 / 10) := by
  unfold notionContrib notionChangeCount
  rcases a.notion with _ | n
  · rw [Nat.cast_zero, zero_cap_n]
  · dsimp only
    split_ifs
    · rfl
    · rw [Nat.cast_zero, zero_cap_n]

theorem analyze_urgency_score (a : AgentData) :
    (analyze_urgency a).urgency_score =
      min (min ((githubHighCount a : ℚ) * (2 / 10)) (5 / 10)
        + min ((slackActionCount a : ℚ) * (1 / 10)) (3 / 10)
        + min ((notionChangeCount a : ℚ) * (15 / 100)) (2 / 10)) 1 := by
  show min (0 + githubContrib a + slackContrib a + notionContrib a) 1 = _
  rw [githubContrib_eq, slackContrib_eq, notionContrib_eq, zero_add]

theorem urgencyLevel_iffs (q : ℚ) :
    (urgencyLevel q = "critical" ↔ 7 / 10 ≤ q) ∧
    (urgencyLevel q = "high" ↔ 4 / 10 ≤ q ∧ q < 7 / 10) ∧
    (urgencyLevel q = "medium" ↔ 2 / 10 ≤ q ∧ q < 4 / 10) ∧
    (urgencyLevel q = "low" ↔ q < 2 / 10) := by
  unfold urgencyLevel
  split_ifs with h1 h2 h3
  · refine ⟨⟨fun _ => h1, fun _ => rfl⟩, ?_, ?_, ?_⟩
    · exact ⟨fun h => absurd h (by decide), fun h => by exfalso; linarith [h.2]⟩
    · exact ⟨fun h => absurd h (by decide), fun h => by exfalso; linarith [h.2]⟩
    · exact ⟨fun h => absurd h (by decide), fun h => by exfalso; linarith⟩
  · refine ⟨?_, ⟨fun _ => ⟨h2, lt_of_not_le h1⟩, fun _ => rfl⟩, ?_, ?_⟩
    · exact ⟨fun h => absurd h (by decide), fun h => absurd h h1⟩
    · exact ⟨fun h => absurd h (by decide), fun h => by exfalso; linarith [h.2]⟩
    · exact ⟨fun h => absurd h (by decide), fun h => by exfalso; linarith⟩
  · refine ⟨?_, ?_, ⟨fun _ => ⟨h3, lt_of_not_le h2⟩, fun _ => rfl⟩, ?_⟩
    · exact ⟨fun h => absurd h (by decide), fun h => absurd h h1⟩
    · exact ⟨fun h => absurd h (by decide), fun h => absurd h.1 h2⟩
    · exact ⟨fun h => absurd h (by decide), fun h => by exfalso; linarith⟩
  · refine ⟨?_, ?_, ?_, ⟨fun _ => lt_of_not_le h3, fun _ => rfl⟩⟩
    · exact ⟨fun h => absurd h (by decide), fun h => absurd h h1⟩
    · exact ⟨fun h => absurd h (by decide), fun h => absurd h.1 h2⟩
    · exact ⟨fun h => absurd h (by decide), fun h => absurd h.1 h3⟩

theorem analyze_urgency_level (a : AgentData) :
    (analyze_urgency a).urgency_level = urgencyLevel (analyze_urgency a).urgency_score ∧
    (analyze_urgency a).recommendation =
      get_urgency_recommendation (analyze_urgency a).urgency_level := by
  exact ⟨rfl, rfl⟩

/-- C9: `analyze_urgency` computes the urgency score as the sum of the three
capped per-source contributions `min(0.2·#githubHigh, 0.5) +
min(0.1·#slackActions, 0.3) + min(0.15·#notionChanges, 0.2)` clamped to
`[0, 1]`, maps it to the ordinal level with critical ⟺ score ≥ 0.7,
high ⟺ 0.4 ≤ score < 0.7, medium ⟺ 0.2 ≤ score < 0.4, low ⟺ score < 0.2,
and emits the fixed recommendation string of the level. -/
theorem C9_analyze_urgency (a : AgentData) :
    ((analyze_urgency a).urgency_score =
      min (min ((githubHighCount a : ℚ) * (2 / 10)) (5 / 10)
        + min ((slackActionCount a : ℚ) * (1 / 10)) (3 / 10)
        + min ((notionChangeCount a : ℚ) * (15 / 100)) (2 / 10)) 1) ∧
    (0 ≤ (analyze_urgency a).urgency_score ∧ (analyze_urgency a).urgency_score ≤ 1) ∧
    ((analyze_urgency a).urgency_level = "critical" ↔
      7 / 10 ≤ (analyze_urgency a).urgency_score) ∧
    ((analyze_urgency a).urgency_level = "high" ↔
      4 / 10 ≤ (analyze_urgency a).urgency_score ∧
        (analyze_urgency a).urgency_score < 7 / 10) ∧
    ((analyze_urgency a).urgency_level = "medium" ↔
      2 / 10 ≤ (analyze_urgency a).urgency_score ∧
        (analyze_urgency a).urgency_score < 4 / 10) ∧
    ((analyze_urgency a).urgency_level = "low" ↔
      (analyze_urgency a).urgency_score < 2 / 10) ∧
    (analyze_urgency a).recommendation =
      get_urgency_recommendation (analyze_urgency a).urgency_level := by
  have hscore := analyze_urgency_score a
  have hlvl := analyze_urgency_level a
  have hiffs := urgencyLevel_iffs (analyze_urgency a).urgency_score
  rw [hlvl.1]
  refine ⟨hscore, ⟨?_, ?_⟩, hiffs.1, hiffs.2.1, hiffs.2.2.1, hiffs.2.2.2, ?_⟩
  · rw [hscore]
    have t1 : (0 : ℚ) ≤ min ((githubHighCount a : ℚ) * (2 / 10)) (5 / 10) :=
      le_min (by positivity) (by norm_num)
    have t2 : (0 : ℚ) ≤ min ((slackActionCount a : ℚ) * (1 / 10)) (3 / 10) :=
      le_min (by positivity) (by norm_num)
    have t3 : (0 : ℚ) ≤ min ((notionChangeCount a : ℚ) * (15 / 100)) (2 / 10) :=
      le_min (by positivity) (by norm_num)
    exact le_min (by linarith) (by norm_num)
  · rw [hscore]
    exact min_le_right _ _
  · rw [← hlvl.1]
    exact hlvl.2

/-- C4: `extract_decisions` returns a non-empty list — exactly one label,
with the claimed prefix/title/categories shape — if and only if at least
2 distinct keyword categories matched, `len(text) > 150`, and the
document type is `pull_request` or `issue`; in particular a commit-type
document always yields zero decision labels. -/
theorem C4_decision_gating (text : String) (metadata : Metadata) :
    (extract_decisions text metadata =
      if 2 ≤ decisionScore text ∧ 150 < text.length ∧
          (metadata.type = "pull_request" ∨ metadata.type = "issue") then
        [decisionLabel text metadata]
      else []) ∧
    (extract_decisions text metadata ≠ [] ↔
      2 ≤ decisionScore text ∧ 150 < text.length ∧
        (metadata.type = "pull_request" ∨ metadata.type = "issue")) ∧
    (metadata.type = "commit" → extract_decisions text metadata = []) := by
  have key : extract_decisions text metadata =
      if 2 ≤ decisionScore text ∧ 150 < text.length ∧
          (metadata.type = "pull_request" ∨ metadata.type = "issue") then
        [decisionLabel text metadata]
      else [] := by
    unfold extract_decisions decisionLabel
    by_cases h0 : text = ""
    · subst h0
      have hs : decisionScore "" = 0 := by decide
      rw [if_pos rfl, if_neg]
      intro hgate
      rw [hs] at hgate
      exact absurd hgate.1 (by norm_num)
    · rw [if_neg h0]
      by_cases h1 : 2 ≤ decisionScore text ∧ 150 < text.length
      · rw [if_pos h1]
        by_cases h2 : metadata.type = "pull_request"
        · rw [if_pos h2, if_pos ⟨h1.1, h1.2, Or.inl h2⟩, if_pos h2]
        · rw [if_neg h2]
          by_cases h3 : metadata.type = "issue"
          · rw [if_pos h3, if_pos ⟨h1.1, h1.2, Or.inr h3⟩, if_neg h2]
          · rw [if_neg h3, if_neg]
            rintro ⟨-, -, h | h⟩
            · exact h2 h
            · exact h3 h
      · rw [if_neg h1, if_neg]
        rintro ⟨ha, hb, -⟩
        exact h1 ⟨ha, hb⟩
  refine ⟨key, ?_, ?_⟩
  · rw [key]
    constructor
    · intro hne
      by_contra hgate
      rw [if_neg hgate] at hne
      exact hne rfl
    · intro hgate
      rw [if_pos hgate]
      simp
  · intro hc
    rw [key, if_neg]
    rintro ⟨-, -, h | h⟩ <;> rw [hc] at h <;> exact absurd h (by decide)

/-- C4 witness: the gating theorem applied to a commit-type document whose
text would otherwise qualify (2 categories, length above 150). -/
theorem C4_witness :
    extract_decisions
      "We decided to switch to Redis for caching, a clear architecture choice. This paragraph is padded to exceed the one hundred and fifty character threshold easily."
      { type := "commit" } = [] :=
  (C4_decision_gating
    "We decided to switch to Redis for caching, a clear architecture choice. This paragraph is padded to exceed the one hundred and fifty character threshold easily."
    { type := "commit" }).2.2 rfl

/-- `_is_false_positive_context` as one boolean equation: some match
exists, no match's 20-character context contains an action verb, and
every match's 10-character window contains a `/`. -/
theorem is_fpc_eq (text keyword : String) :
    is_false_positive_context text keyword =
      (!(findWB text.data keyword.data).isEmpty &&
       !(findWB text.data keyword.data).any (fun st =>
          valid_indicators.any fun ind =>
            infixB ind.data (ctxSlice text.data st keyword.data.length 20)) &&
       (findWB text.data keyword.data).all (fun st =>
          (ctxSlice text.data st keyword.data.length 10).contains '/')) := by
  unfold is_false_positive_context
  dsimp only
  split_ifs <;> simp_all

/-- C7 (amended): a whole-word variant match is discarded by
`extract_modules` if and only if no occurrence's surrounding 20-character
context contains one of the action verbs — the verb test is per-occurrence
context, not "elsewhere in the text" — and every occurrence's surrounding
10 characters contain a `/`; if any occurrence has a verb in its context,
the whole match is accepted. -/
theorem C7_discard_characterization (text v : String) :
    discardedVariation text v = true ↔
      findWB (strLower text).data v.data ≠ [] ∧
      (∀ st ∈ findWB (strLower text).data v.data,
        ¬ ∃ ind ∈ valid_indicators,
          infixB ind.data (ctxSlice (strLower text).data st v.data.length 20) = true) ∧
      (∀ st ∈ findWB (strLower text).data v.data,
        ('/' : Char) ∈ ctxSlice (strLower text).data st v.data.length 10) := by
  unfold discardedVariation variationFound
  rw [is_fpc_eq]
  rw [Bool.and_eq_true, Bool.and_eq_true, Bool.and_eq_true]
  constructor
  · rintro ⟨hne0, ⟨-, hnoany⟩, hall⟩
    refine ⟨?_, ?_, ?_⟩
    · intro hnil
      rw [hnil] at hne0
      simp at hne0
    · rintro st hst ⟨ind, hind, hinf⟩
      rw [Bool.not_eq_true'] at hnoany
      exact (List.any_eq_false.mp hnoany st hst)
        (List.any_eq_true.mpr ⟨ind, hind, hinf⟩)
    · intro st hst
      have := List.all_eq_true.mp hall st hst
      simpa using this
  · rintro ⟨hne, hctx, hall⟩
    have hne' : (!(findWB (strLower text).data v.data).isEmpty) = true := by
      simp [List.isEmpty_iff, hne]
    refine ⟨hne', ⟨hne', ?_⟩, ?_⟩
    · rw [Bool.not_eq_true']
      refine List.any_eq_false.mpr fun st hst => ?_
      intro hany
      rcases List.any_eq_true.mp hany with ⟨ind, hind, hinf⟩
      exact hctx st hst ⟨ind, hind, hinf⟩
    · refine List.all_eq_true.mpr fun st hst => ?_
      simpa using hall st hst

/-- C7 counterexample: in the text
`"using qqq www eee rrr ttt yyy /redis/ zzz"` the only occurrence of
`redis` sits between slashes (10-character windows contain `/`) and no
action verb lies within its 20-character context, yet the verb `using`
does appear elsewhere in the text: the code discards the match while the
claim as stated ("not accompanied elsewhere in the text") would accept
it. -/
theorem C7_counterexample :
    discardedVariation "using qqq www eee rrr ttt yyy /redis/ zzz" "redis" = true ∧
      ¬ claimDiscardedVariation "using qqq www eee rrr ttt yyy /redis/ zzz" "redis" := by
  constructor
  · decide
  · intro h
    exact h.2.2 ⟨"using", by decide, by decide⟩

/-- C7 witness: the characterization applied to a concrete discarded match
(`redis` occurring only inside a path, with no action verb anywhere). -/
theorem C7_witness :
    (∀ st ∈ findWB (strLower "see docs/redis/intro").data "redis".data,
      ¬ ∃ ind ∈ valid_indicators,
        infixB ind.data (ctxSlice (strLower "see docs/redis/intro").data st 5 20) = true) ∧
    (∀ st ∈ findWB (strLower "see docs/redis/intro").data "redis".data,
      ('/' : Char) ∈ ctxSlice (strLower "see docs/redis/intro").data st 5 10) :=
  ((C7_discard_characterization "see docs/redis/intro" "redis").mp (by decide)).2

theorem foldl_preserve {α β : Type} (P : α → Prop) (f : α → β → α) (l : List β)
    (init : α) (h0 : P init) (hstep : ∀ a, P a → ∀ b ∈ l, P (f a b)) :
    P (l.foldl f init) := by
  induction l generalizing init with
  | nil => exact h0
  | cons b l ih =>
    exact ih (f init b) (hstep init h0 b (List.mem_cons_self _ _))
      (fun a ha b' hb' => hstep a ha b' (List.mem_cons_of_mem _ hb'))

/-! ## Behaviour of `normalize_author` on the author map -/

theorem normalize_author_some {a : String} {m : List (String × String)}
    {r : String} (h : (normalize_author (some a) m).1 = some r) :
    a ≠ "" ∧ a ≠ "Unknown" := by
  unfold normalize_author at h
  dsimp only at h
  by_cases hcond : a = "" ∨ a = "Unknown"
  · rw [if_pos hcond] at h
    exact absurd h (by simp)
  · push_neg at hcond
    exact hcond

theorem normalize_author_effect (a : String) (m : List (String × String))
    (hwf : MapWF m) :
    MapWF (normalize_author (some a) m).2 ∧
    (∀ r, (normalize_author (some a) m).1 = some r →
      alookup (strLower r) (normalize_author (some a) m).2 = some r) ∧
    (∀ p, alookup (strLower p) m = some p →
      alookup (strLower p) (normalize_author (some a) m).2 = some p) := by
  unfold normalize_author
  dsimp only
  by_cases hcond : a = "" ∨ a = "Unknown"
  · rw [if_pos hcond]
    exact ⟨hwf, fun r hr => absurd hr (by simp), fun p hp => hp⟩
  · rw [if_neg hcond]
    rcases hl : alookup (strLower a) m with _ | v
    · dsimp only
      refine ⟨?_, ?_, ?_⟩
      · intro kv hkv
        rcases List.mem_append.mp hkv with h | h
        · exact hwf kv h
        · rcases List.mem_singleton.mp h with rfl
          rfl
      · intro r hr
        rcases Option.some.inj hr with rfl
        rw [alookup_append, hl]
        dsimp only [alookup]
        rw [if_pos rfl]
      · intro p hp
        rw [alookup_append, hp]
    · dsimp only
      refine ⟨hwf, ?_, fun p hp => hp⟩
      intro r hr
      rcases Option.some.inj hr with rfl
      have hmem := alookup_mem hl
      have := hwf _ hmem
      dsimp at this
      rw [this]
      exact hl

/-- The consistency core of claim C3: two case-variant inputs, normalized in
sequence from any author map, yield the same result, and a first-seen name
is returned in its original casing. -/
theorem normalize_author_consistent (a b : String) (m : List (String × String))
    (ha1 : a ≠ "") (ha2 : a ≠ "Unknown") (hb1 : b ≠ "") (hb2 : b ≠ "Unknown")
    (hab : strLower a = strLower b) :
    (normalize_author (some b) (normalize_author (some a) m).2).1 =
      (normalize_author (some a) m).1 ∧
    (alookup (strLower a) m = none → (normalize_author (some a) m).1 = some a) := by
  have h1 : normalize_author (some a) m =
      match alookup (strLower a) m with
      | some v => (some v, m)
      | none => (some a, m ++ [(strLower a, a)]) := by
    unfold normalize_author
    dsimp only
    rw [if_neg (by tauto)]
  rcases hl : alookup (strLower a) m with _ | v
  · rw [hl] at h1
    dsimp only at h1
    rw [h1]
    have h2 : normalize_author (some b) (m ++ [(strLower a, a)]) =
        (some a, m ++ [(strLower a, a)]) := by
      unfold normalize_author
      dsimp only
      rw [if_neg (by tauto)]
      have hfind : alookup (strLower b) (m ++ [(strLower a, a)]) = some a := by
        rw [← hab, alookup_append, hl]
        dsimp only [alookup]
        rw [if_pos rfl]
      rw [hfind]
    rw [h2]
    exact ⟨rfl, fun _ => rfl⟩
  · rw [hl] at h1
    dsimp only at h1
    rw [h1]
    have h2 : normalize_author (some b) m = (some v, m) := by
      unfold normalize_author
      dsimp only
      rw [if_neg (by tauto), ← hab, hl]
    rw [h2]
    exact ⟨rfl, fun h => Option.noConfusion h⟩

/-! ## Invariant preservation by the document loop -/

theorem relinvc_mono {people people' modules modules' decisions decisions' : List String}
    {p2m p2d m2d : List (String × List String)}
    {p2c : List (String × List CommitData)}
    {files : List (String × FileData)}
    (hp : ∀ x ∈ people, x ∈ people')
    (hm : ∀ x ∈ modules, x ∈ modules')
    (hd : ∀ x ∈ decisions, x ∈ decisions')
    (h : RelInvC people modules decisions p2m p2d m2d p2c files) :
    RelInvC people' modules' decisions' p2m p2d m2d p2c files := by
  obtain ⟨i1, i2, i3, i4, i5⟩ := h
  refine ⟨?_, ?_, ?_, ?_, ?_⟩
  · exact fun pm hpm => ⟨hp _ (i1 pm hpm).1, fun m hm' => hm _ ((i1 pm hpm).2 m hm')⟩
  · exact fun pd hpd => ⟨hp _ (i2 pd hpd).1, fun x hx => hd _ ((i2 pd hpd).2 x hx)⟩
  · exact fun md hmd => ⟨hm _ (i3 md hmd).1, fun x hx => hd _ ((i3 md hmd).2 x hx)⟩
  · exact fun pc hpc => hp _ (i4 pc hpc)
  · exact fun f hf p hpc => hp _ (i5 f hf p hpc)

theorem files_modify_inv (people : List String) (author : Option String) (fp sha : String)
    (base : List (String × FileData))
    (hbase : ∀ f ∈ base, ∀ p : String, some p ∈ f.2.contributors → p ∈ people)
    (ha : ∀ a, author = some a → a ∈ people) :
    ∀ f ∈ base.map (fun p =>
        if p.1 = fp then
          (p.1,
            { p.2 with
              contributors := insertDedup p.2.contributors author,
              commits := p.2.commits ++ [sha] })
        else p),
      ∀ q : String, some q ∈ f.2.contributors → q ∈ people := by
  intro f hf q hq
  rcases List.mem_map.mp hf with ⟨p0, hp0, heq⟩
  by_cases hkey : p0.1 = fp
  · rw [if_pos hkey] at heq
    subst heq
    dsimp at hq
    rcases mem_insertDedup.mp hq with hold | hnew
    · exact hbase p0 hp0 q hold
    · exact ha q hnew.symm
  · rw [if_neg hkey] at heq
    subst heq
    exact hbase p0 hp0 q hq

theorem files_append_new (people : List String) (fp : String)
    (base : List (String × FileData))
    (hbase : ∀ f ∈ base, ∀ p : String, some p ∈ f.2.contributors → p ∈ people) :
    ∀ f ∈ base ++ [(fp, ({ path := fp, contributors := [], commits := [] } : FileData))],
      ∀ p : String, some p ∈ f.2.contributors → p ∈ people := by
  intro f hf p hp
  rcases List.mem_append.mp hf with h | h
  · exact hbase f h p hp
  · rcases List.mem_singleton.mp h with rfl
    exact absurd hp (List.not_mem_nil _)

theorem processCommitFile_inv (author : Option String) (commit_sha : String)
    (st : BuildState) (fp : String)
    (hinv : StInv st) (ha : ∀ a, author = some a → a ∈ st.people) :
    StInv (processCommitFile author commit_sha st fp) ∧
    (processCommitFile author commit_sha st fp).people = st.people ∧
    (processCommitFile author commit_sha st fp).modules = st.modules ∧
    (processCommitFile author commit_sha st fp).decisions = st.decisions ∧
    (processCommitFile author commit_sha st fp).author_map = st.author_map ∧
    (processCommitFile author commit_sha st fp).person_to_modules = st.person_to_modules ∧
    (processCommitFile author commit_sha st fp).person_to_decisions = st.person_to_decisions ∧
    (processCommitFile author commit_sha st fp).module_to_decisions = st.module_to_decisions ∧
    (processCommitFile author commit_sha st fp).person_to_commits = st.person_to_commits ∧
    (processCommitFile author commit_sha st fp).commits = st.commits := by
  obtain ⟨hwf, hreg, hrel⟩ := hinv
  unfold processCommitFile
  split_ifs with hfp
  · rcases author with _ | a <;> dsimp only <;> split_ifs with hnew <;> dsimp only <;>
      refine ⟨⟨hwf, hreg, hrel.1, hrel.2.1, hrel.2.2.1, hrel.2.2.2.1, ?_⟩,
        rfl, rfl, rfl, rfl, rfl, rfl, rfl, rfl, rfl⟩
    · exact files_modify_inv st.people none fp commit_sha st.files hrel.2.2.2.2
        (fun a h => Option.noConfusion h)
    · exact files_modify_inv st.people none fp commit_sha _
        (files_append_new st.people fp st.files hrel.2.2.2.2)
        (fun a h => Option.noConfusion h)
    · exact files_modify_inv st.people (some a) fp commit_sha st.files hrel.2.2.2.2
        (fun a' h => (Option.some.inj h) ▸ ha a rfl)
    · exact files_modify_inv st.people (some a) fp commit_sha _
        (files_append_new st.people fp st.files hrel.2.2.2.2)
        (fun a' h => (Option.some.inj h) ▸ ha a rfl)
  · exact ⟨⟨hwf, hreg, hrel⟩, rfl, rfl, rfl, rfl, rfl, rfl, rfl, rfl, rfl⟩

theorem commitFilesFold_inv (author : Option String) (sha : String) (fps : List String)
    (st2 : BuildState) (hinv : StInv st2) (ha : ∀ a, author = some a → a ∈ st2.people) :
    StInv (fps.foldl (processCommitFile author sha) st2) ∧
    (fps.foldl (processCommitFile author sha) st2).people = st2.people ∧
    (fps.foldl (processCommitFile author sha) st2).modules = st2.modules ∧
    (fps.foldl (processCommitFile author sha) st2).decisions = st2.decisions ∧
    (fps.foldl (processCommitFile author sha) st2).author_map = st2.author_map ∧
    (fps.foldl (processCommitFile author sha) st2).person_to_modules = st2.person_to_modules ∧
    (fps.foldl (processCommitFile author sha) st2).person_to_decisions = st2.person_to_decisions ∧
    (fps.foldl (processCommitFile author sha) st2).module_to_decisions = st2.module_to_decisions ∧
    (fps.foldl (processCommitFile author sha) st2).person_to_commits = st2.person_to_commits ∧
    (fps.foldl (processCommitFile author sha) st2).commits = st2.commits := by
  refine foldl_preserve (fun s => StInv s ∧ s.people = st2.people ∧ s.modules = st2.modules ∧
    s.decisions = st2.decisions ∧ s.author_map = st2.author_map ∧
    s.person_to_modules = st2.person_to_modules ∧
    s.person_to_decisions = st2.person_to_decisions ∧
    s.module_to_decisions = st2.module_to_decisions ∧
    s.person_to_commits = st2.person_to_commits ∧
    s.commits = st2.commits)
    (processCommitFile author sha) fps st2
    ⟨hinv, rfl, rfl, rfl, rfl, rfl, rfl, rfl, rfl, rfl⟩ ?_
  intro s hs fp hfp
  obtain ⟨hs0, hs1, hs2, hs3, hs4, hs5, hs6, hs7, hs8, hs9⟩ := hs
  have ha' : ∀ a, author = some a → a ∈ s.people := by
    intro a h
    rw [hs1]
    exact ha a h
  obtain ⟨q0, q1, q2, q3, q4, q5, q6, q7, q8, q9⟩ :=
    processCommitFile_inv author sha s fp hs0 ha'
  exact ⟨q0, q1.trans hs1, q2.trans hs2, q3.trans hs3, q4.trans hs4, q5.trans hs5,
    q6.trans hs6, q7.trans hs7, q8.trans hs8, q9.trans hs9⟩

theorem processCommit_inv (st : BuildState) (i : Nat) (d : Doc) (author : Option String)
    (hinv : StInv st) (ha : ∀ a, author = some a → a ∈ st.people) :
    StInv (processCommit st i d author) ∧
    (processCommit st i d author).people = st.people ∧
    (processCommit st i d author).modules = st.modules ∧
    (processCommit st i d author).decisions = st.decisions ∧
    (processCommit st i d author).author_map = st.author_map ∧
    (processCommit st i d author).person_to_modules = st.person_to_modules ∧
    (processCommit st i d author).person_to_decisions = st.person_to_decisions ∧
    (processCommit st i d author).module_to_decisions = st.module_to_decisions := by
  obtain ⟨hwf, hreg, hrel⟩ := hinv
  unfold processCommit
  dsimp only
  rcases author with _ | a
  · dsimp only
    have h2 : StInv { st with commits := st.commits ++
        [{ sha := if 7 < (commitSha i d).length then strTake (commitSha i d) 7
                  else commitSha i d
           full_sha := commitSha i d
           message := strTake (if d.text ≠ ""
             then strReplace ((strSplit d.text "\n").headD "") "Commit: " ""
             else "Unknown commit") 100
           author := none
           date := d.meta.date
           url := d.meta.url.getD ""
           files := commitFiles d.text }] } := ⟨hwf, hreg, hrel⟩
    obtain ⟨q0, q1, q2, q3, q4, q5, q6, q7, -, -⟩ :=
      commitFilesFold_inv none (commitSha i d) (commitFiles d.text) _ h2
        (fun a h => Option.noConfusion h)
    exact ⟨q0, q1, q2, q3, q4, q5, q6, q7⟩
  · dsimp only
    have h2 : StInv { st with
        commits := st.commits ++
          [{ sha := if 7 < (commitSha i d).length then strTake (commitSha i d) 7
                    else commitSha i d
             full_sha := commitSha i d
             message := strTake (if d.text ≠ ""
               then strReplace ((strSplit d.text "\n").headD "") "Commit: " ""
               else "Unknown commit") 100
             author := some a
             date := d.meta.date
             url := d.meta.url.getD ""
             files := commitFiles d.text }]
        person_to_commits := appendToListMap st.person_to_commits a
          { sha := if 7 < (commitSha i d).length then strTake (commitSha i d) 7
                   else commitSha i d
            full_sha := commitSha i d
            message := strTake (if d.text ≠ ""
              then strReplace ((strSplit d.text "\n").headD "") "Commit: " ""
              else "Unknown commit") 100
            author := some a
            date := d.meta.date
            url := d.meta.url.getD ""
            files := commitFiles d.text } } := by
      refine ⟨hwf, hreg, hrel.1, hrel.2.1, hrel.2.2.1, ?_, hrel.2.2.2.2⟩
      refine aupdate_forall (fun pc => pc.1 ∈ st.people) hrel.2.2.2.1 ?_ ?_
      · exact ha a rfl
      · exact fun v hv => hv
    obtain ⟨q0, q1, q2, q3, q4, q5, q6, q7, -, -⟩ :=
      commitFilesFold_inv (some a) (commitSha i d) (commitFiles d.text) _ h2
        (fun a' h => (Option.some.inj h) ▸ ha a rfl)
    exact ⟨q0, q1, q2, q3, q4, q5, q6, q7⟩

theorem updAuthorPeople_inv (st : BuildState) (raw : String) (h : StInv st) :
    StInv (updAuthorPeople st raw).1 ∧
    (∀ a, (updAuthorPeople st raw).2 = some a → a ∈ (updAuthorPeople st raw).1.people) ∧
    (∀ x ∈ st.people, x ∈ (updAuthorPeople st raw).1.people) ∧
    (updAuthorPeople st raw).1.modules = st.modules ∧
    (updAuthorPeople st raw).1.decisions = st.decisions ∧
    (updAuthorPeople st raw).1.person_to_modules = st.person_to_modules ∧
    (updAuthorPeople st raw).1.person_to_decisions = st.person_to_decisions ∧
    (updAuthorPeople st raw).1.module_to_decisions = st.module_to_decisions ∧
    (updAuthorPeople st raw).1.person_to_commits = st.person_to_commits ∧
    (updAuthorPeople st raw).1.files = st.files ∧
    (updAuthorPeople st raw).1.commits = st.commits := by
  obtain ⟨hwf, hreg, hrel⟩ := h
  obtain ⟨ewf, eret, epres⟩ := normalize_author_effect raw st.author_map hwf
  unfold updAuthorPeople
  dsimp only
  rcases hna : (normalize_author (some raw) st.author_map).1 with _ | a
  · dsimp only
    refine ⟨⟨ewf, ?_, hrel⟩, ?_, ?_, rfl, rfl, rfl, rfl, rfl, rfl, rfl, rfl⟩
    · exact fun p hp => epres p (hreg p hp)
    · exact fun a h' => Option.noConfusion h'
    · exact fun x hx => hx
  · dsimp only
    refine ⟨⟨ewf, ?_, ?_⟩, ?_, ?_, rfl, rfl, rfl, rfl, rfl, rfl, rfl, rfl⟩
    · intro p hp
      rcases mem_insertDedup.mp hp with hp' | rfl
      · exact epres p (hreg p hp')
      · exact eret p hna
    · exact relinvc_mono
        (fun x hx => mem_insertDedup_of_mem hx) (fun x hx => hx) (fun x hx => hx) hrel
    · intro a' h'
      rcases Option.some.inj h' with rfl
      exact self_mem_insertDedup _ _
    · exact fun x hx => mem_insertDedup_of_mem hx

theorem updModules_inv (st : BuildState) (mods : List String) (h : StInv st) :
    StInv (updModules st mods) ∧
    (∀ x ∈ mods, x ∈ (updModules st mods).modules) ∧
    (∀ x ∈ st.modules, x ∈ (updModules st mods).modules) ∧
    (updModules st mods).people = st.people ∧
    (updModules st mods).decisions = st.decisions := by
  obtain ⟨hwf, hreg, hrel⟩ := h
  refine ⟨⟨hwf, hreg, relinvc_mono (fun x hx => hx)
      (fun x hx => (mem_foldl_insertDedup mods st.modules x).mpr (Or.inl hx))
      (fun x hx => hx) hrel⟩, ?_, ?_, rfl, rfl⟩
  · exact fun x hx => (mem_foldl_insertDedup mods st.modules x).mpr (Or.inr hx)
  · exact fun x hx => (mem_foldl_insertDedup mods st.modules x).mpr (Or.inl hx)

theorem updDecisions_inv (st : BuildState) (decs : List String) (h : StInv st) :
    StInv (updDecisions st decs) ∧
    (∀ x ∈ decs, x ∈ (updDecisions st decs).decisions) ∧
    (∀ x ∈ st.decisions, x ∈ (updDecisions st decs).decisions) ∧
    (updDecisions st decs).people = st.people ∧
    (updDecisions st decs).modules = st.modules := by
  obtain ⟨hwf, hreg, hrel⟩ := h
  refine ⟨⟨hwf, hreg, relinvc_mono (fun x hx => hx) (fun x hx => hx)
      (fun x hx => (mem_foldl_insertDedup decs st.decisions x).mpr (Or.inl hx)) hrel⟩,
      ?_, ?_, rfl, rfl⟩
  · exact fun x hx => (mem_foldl_insertDedup decs st.decisions x).mpr (Or.inr hx)
  · exact fun x hx => (mem_foldl_insertDedup decs st.decisions x).mpr (Or.inl hx)

theorem updPersonMaps_inv (st : BuildState) (author : Option String) (mods decs : List String)
    (h : StInv st) (ha : ∀ a, author = some a → a ∈ st.people)
    (hmods : ∀ x ∈ mods, x ∈ st.modules) (hdecs : ∀ x ∈ decs, x ∈ st.decisions) :
    StInv (updPersonMaps st author mods decs) ∧
    (updPersonMaps st author mods decs).people = st.people ∧
    (updPersonMaps st author mods decs).modules = st.modules ∧
    (updPersonMaps st author mods decs).decisions = st.decisions ∧
    (updPersonMaps st author mods decs).module_to_decisions = st.module_to_decisions := by
  obtain ⟨hwf, hreg, r1, r2, r3, r4, r5⟩ := h
  rcases author with _ | a
  · exact ⟨⟨hwf, hreg, r1, r2, r3, r4, r5⟩, rfl, rfl, rfl, rfl⟩
  · unfold updPersonMaps
    dsimp only
    refine ⟨⟨hwf, hreg, ?_, ?_, r3, r4, r5⟩, rfl, rfl, rfl, rfl⟩
    · refine foldl_preserve
        (fun m : List (String × List String) =>
          ∀ e ∈ m, e.1 ∈ st.people ∧ ∀ x ∈ e.2, x ∈ st.modules) _ mods _ r1 ?_
      intro m hm mo hmo
      refine aupdate_forall _ hm ?_ ?_
      · refine ⟨ha a rfl, fun x hx => ?_⟩
        rcases (mem_insertDedup (l := []) (x := mo)).mp hx with hx' | rfl
        · exact absurd hx' (List.not_mem_nil _)
        · exact hmods _ hmo
      · rintro v ⟨hv1, hv2⟩
        refine ⟨hv1, fun x hx => ?_⟩
        rcases (mem_insertDedup (l := v) (x := mo)).mp hx with hx' | rfl
        · exact hv2 x hx'
        · exact hmods _ hmo
    · refine foldl_preserve
        (fun m : List (String × List String) =>
          ∀ e ∈ m, e.1 ∈ st.people ∧ ∀ x ∈ e.2, x ∈ st.decisions) _ decs _ r2 ?_
      intro m hm de hde
      refine aupdate_forall _ hm ?_ ?_
      · refine ⟨ha a rfl, fun x hx => ?_⟩
        rcases (mem_insertDedup (l := []) (x := de)).mp hx with hx' | rfl
        · exact absurd hx' (List.not_mem_nil _)
        · exact hdecs _ hde
      · rintro v ⟨hv1, hv2⟩
        refine ⟨hv1, fun x hx => ?_⟩
        rcases (mem_insertDedup (l := v) (x := de)).mp hx with hx' | rfl
        · exact hv2 x hx'
        · exact hdecs _ hde

theorem updModuleDecisions_inv (st : BuildState) (mods decs : List String)
    (h : StInv st)
    (hmods : ∀ x ∈ mods, x ∈ st.modules) (hdecs : ∀ x ∈ decs, x ∈ st.decisions) :
    StInv (updModuleDecisions st mods decs) := by
  obtain ⟨hwf, hreg, r1, r2, r3, r4, r5⟩ := h
  refine ⟨hwf, hreg, r1, r2, ?_, r4, r5⟩
  refine foldl_preserve
    (fun m : List (String × List String) =>
      ∀ e ∈ m, e.1 ∈ st.modules ∧ ∀ x ∈ e.2, x ∈ st.decisions) _ mods _ r3 ?_
  intro m hm mo hmo
  refine foldl_preserve
    (fun m2 : List (String × List String) =>
      ∀ e ∈ m2, e.1 ∈ st.modules ∧ ∀ x ∈ e.2, x ∈ st.decisions) _ decs _ hm ?_
  intro m2 hm2 de hde
  refine aupdate_forall _ hm2 ?_ ?_
  · refine ⟨hmods mo hmo, fun x hx => ?_⟩
    rcases (mem_insertDedup (l := []) (x := de)).mp hx with hx' | rfl
    · exact absurd hx' (List.not_mem_nil _)
    · exact hdecs _ hde
  · rintro v ⟨hv1, hv2⟩
    refine ⟨hv1, fun x hx => ?_⟩
    rcases (mem_insertDedup (l := v) (x := de)).mp hx with hx' | rfl
    · exact hv2 x hx'
    · exact hdecs _ hde

theorem processDoc_inv (st : BuildState) (i : Nat) (d : Doc) (h : StInv st) :
    StInv (processDoc st i d) := by
  unfold processDoc
  dsimp only
  obtain ⟨h1, hamem, -, -, -, -, -, -, -, -, -⟩ :=
    updAuthorPeople_inv st (d.meta.author.getD "Unknown") h
  obtain ⟨h2, hmods2, -, hpe2, hde2⟩ :=
    updModules_inv (updAuthorPeople st (d.meta.author.getD "Unknown")).1
      (extract_modules d.text) h1
  obtain ⟨h3, hdecs3, -, hpe3, hmo3⟩ :=
    updDecisions_inv _ (extract_decisions d.text d.meta) h2
  set st3 := updDecisions
    (updModules (updAuthorPeople st (d.meta.author.getD "Unknown")).1
      (extract_modules d.text))
    (extract_decisions d.text d.meta) with hst3
  have ha3 : ∀ a, (updAuthorPeople st (d.meta.author.getD "Unknown")).2 = some a →
      a ∈ st3.people := by
    intro a hsome
    rw [hst3, hpe3, hpe2]
    exact hamem a hsome
  have hmods3 : ∀ x ∈ extract_modules d.text, x ∈ st3.modules := by
    intro x hx
    rw [hst3, hmo3]
    exact hmods2 x hx
  -- the optional commit stage
  by_cases hc : d.meta.type = "commit"
  · rw [if_pos hc]
    obtain ⟨q0, q1, q2, q3, -, -, -, -⟩ :=
      processCommit_inv st3 i d (updAuthorPeople st (d.meta.author.getD "Unknown")).2 h3 ha3
    set st4 := processCommit st3 i d (updAuthorPeople st (d.meta.author.getD "Unknown")).2
      with hst4
    have ha4 : ∀ a, (updAuthorPeople st (d.meta.author.getD "Unknown")).2 = some a →
        a ∈ st4.people := by
      intro a hsome
      rw [hst4, q1]
      exact ha3 a hsome
    have hmods4 : ∀ x ∈ extract_modules d.text, x ∈ st4.modules := by
      intro x hx
      rw [hst4, q2]
      exact hmods3 x hx
    have hdecs4 : ∀ x ∈ extract_decisions d.text d.meta, x ∈ st4.decisions := by
      intro x hx
      rw [hst4, q3]
      exact hdecs3 x hx
    obtain ⟨h5, -, hm5, hd5, -⟩ :=
      updPersonMaps_inv st4 (updAuthorPeople st (d.meta.author.getD "Unknown")).2
        (extract_modules d.text) (extract_decisions d.text d.meta) q0 ha4 hmods4 hdecs4
    refine updModuleDecisions_inv _ _ _ h5 ?_ ?_
    · intro x hx
      rw [hm5]
      exact hmods4 x hx
    · intro x hx
      rw [hd5]
      exact hdecs4 x hx
  · rw [if_neg hc]
    obtain ⟨h5, -, hm5, hd5, -⟩ :=
      updPersonMaps_inv st3 (updAuthorPeople st (d.meta.author.getD "Unknown")).2
        (extract_modules d.text) (extract_decisions d.text d.meta) h3 ha3 hmods3 hdecs3
    refine updModuleDecisions_inv _ _ _ h5 ?_ ?_
    · intro x hx
      rw [hm5]
      exact hmods3 x hx
    · intro x hx
      rw [hd5]
      exact hdecs3 x hx

theorem stinv_init : StInv ({} : BuildState) := by
  refine ⟨?_, ?_, ?_, ?_, ?_, ?_, ?_⟩ <;>
    exact fun e he => absurd he (List.not_mem_nil _)

theorem processAll_inv (docs : List Doc) : StInv (processAll docs) := by
  unfold processAll
  refine foldl_preserve StInv _ docs.enum {} stinv_init ?_
  exact fun st hst idoc _ => processDoc_inv st idoc.1 idoc.2 hst

/-! ## The node dictionary -/

theorem alookup_dictInsert (ns : List (String × Node)) (k' : String) (v : Node)
    (k : String) :
    alookup k (dictInsert ns k' v) = if k' = k then some v else alookup k ns := by
  induction ns with
  | nil => rfl
  | cons e rest ih =>
    rcases e with ⟨ke, ve⟩
    simp only [dictInsert]
    by_cases he : ke = k'
    · rw [if_pos he]
      by_cases hk : k' = k
      · dsimp only [alookup]
        rw [if_pos hk, if_pos hk]
      · dsimp only [alookup]
        rw [if_neg hk, if_neg hk, if_neg (fun h => hk ((he.symm.trans h)))]
    · rw [if_neg he]
      dsimp only [alookup]
      by_cases hk : ke = k
      · rw [if_pos hk, if_pos hk,
          if_neg (fun h : k' = k => he (hk.trans h.symm))]
      · rw [if_neg hk, if_neg hk, ih]

theorem dictInsert_entry {ns : List (String × Node)} {k : String} {v : Node} :
    ∀ e ∈ dictInsert ns k v, e = (k, v) ∨ e ∈ ns := by
  induction ns with
  | nil =>
    intro e he
    rcases List.mem_singleton.mp he with rfl
    exact Or.inl rfl
  | cons e₀ rest ih =>
    intro e he
    rcases e₀ with ⟨ke, ve⟩
    simp only [dictInsert] at he
    by_cases hk : ke = k
    · rw [if_pos hk] at he
      rcases List.mem_cons.mp he with rfl | h
      · exact Or.inl rfl
      · exact Or.inr (List.mem_cons_of_mem _ h)
    · rw [if_neg hk] at he
      rcases List.mem_cons.mp he with rfl | h
      · exact Or.inr (List.mem_cons_self _ _)
      · rcases ih e h with h' | h'
        · exact Or.inl h'
        · exact Or.inr (List.mem_cons_of_mem _ h')

theorem insFold_hasKey_base {β : Type} (f : β → String) (g : β → Node) (L : List β)
    (ns : List (String × Node)) (k : String) (h : (alookup k ns).isSome) :
    (alookup k (insFold f g L ns)).isSome := by
  unfold insFold
  refine foldl_preserve (fun m => (alookup k m).isSome) _ L ns h ?_
  intro m hm b hb
  rw [alookup_dictInsert]
  split_ifs
  · rfl
  · exact hm

theorem insFold_hasKey_mem {β : Type} (f : β → String) (g : β → Node) (L : List β)
    (ns : List (String × Node)) (b : β) (hb : b ∈ L) :
    (alookup (f b) (insFold f g L ns)).isSome := by
  induction L generalizing ns with
  | nil => exact absurd hb (List.not_mem_nil _)
  | cons b₀ rest ih =>
    rcases List.mem_cons.mp hb with rfl | h
    · refine insFold_hasKey_base f g rest _ (f b) ?_
      rw [alookup_dictInsert, if_pos rfl]
      rfl
    · exact ih _ h

theorem insFold_forall {β : Type} (P : String × Node → Prop) (f : β → String)
    (g : β → Node) (L : List β) (ns : List (String × Node))
    (hns : ∀ e ∈ ns, P e) (hL : ∀ b ∈ L, P (f b, g b)) :
    ∀ e ∈ insFold f g L ns, P e := by
  unfold insFold
  refine foldl_preserve (fun m => ∀ e ∈ m, P e) _ L ns hns ?_
  intro m hm b hb e he
  rcases dictInsert_entry e he with rfl | h
  · exact hL b hb
  · exact hm e h

/-! ## String key prefixes -/

theorem string_append_data (s t : String) : (s ++ t).data = s.data ++ t.data := rfl

theorem append_ne_of_first_char {c₁ c₂ : Char} (t₁ t₂ : List Char) (r₁ r₂ : String)
    (hne : c₁ ≠ c₂) :
    (⟨c₁ :: t₁⟩ : String) ++ r₁ ≠ (⟨c₂ :: t₂⟩ : String) ++ r₂ := by
  intro h
  have hd := congrArg String.data h
  rw [string_append_data, string_append_data] at hd
  simp only [List.cons_append, List.cons.injEq] at hd
  exact hne hd.1

theorem append_left_inj (p a b : String) (h : p ++ a = p ++ b) : a = b := by
  have hd := congrArg String.data h
  rw [string_append_data, string_append_data] at hd
  exact congrArg (fun l => (⟨l⟩ : String)) (List.append_cancel_left hd)

/-! ## Key presence and entry shapes in `mkNodes` -/

theorem indexOfD_lt_of_mem_take {α : Type} [DecidableEq α] (d : α) (l : List α) (n : Nat)
    (h : d ∈ l.take n) : indexOfD d l < n ∧ indexOfD d l < l.length := by
  induction l generalizing n with
  | nil => simp at h
  | cons x xs ih =>
    rcases n with _ | n
    · simp at h
    · rw [List.take_succ_cons] at h
      by_cases hx : x = d
      · unfold indexOfD
        rw [if_pos hx]
        exact ⟨Nat.succ_pos n, by simp⟩
      · rcases List.mem_cons.mp h with rfl | h'
        · exact absurd rfl hx
        · unfold indexOfD
          rw [if_neg hx]
          obtain ⟨h1, h2⟩ := ih n h'
          constructor
          · exact Nat.succ_lt_succ h1
          · simpa using Nat.succ_lt_succ h2

theorem mem_enum_of_lt {α : Type} (L : List α) (i : Nat) (hi : i < L.length) :
    ∃ x, (i, x) ∈ L.enum := by
  refine ⟨L.get ⟨i, hi⟩, ?_⟩
  simp [List.mem_enum_iff_getElem?]

theorem mem_insertDescStable {α : Type} (key : α → Nat) (x y : α) (l : List α) :
    y ∈ insertDescStable key x l → y = x ∨ y ∈ l := by
  induction l with
  | nil =>
    intro h
    rcases List.mem_singleton.mp h with rfl
    exact Or.inl rfl
  | cons z zs ih =>
    intro h
    unfold insertDescStable at h
    split_ifs at h
    · rcases List.mem_cons.mp h with rfl | h'
      · exact Or.inr (List.mem_cons_self _ _)
      · rcases ih h' with h'' | h''
        · exact Or.inl h''
        · exact Or.inr (List.mem_cons_of_mem _ h'')
    · rcases List.mem_cons.mp h with rfl | h'
      · exact Or.inl rfl
      · exact Or.inr h'

theorem mem_sortDescStable {α : Type} (key : α → Nat) (l : List α) (y : α)
    (h : y ∈ sortDescStable key l) : y ∈ l := by
  unfold sortDescStable at h
  have main : ∀ acc, (∀ z ∈ acc, z ∈ l) →
      ∀ z ∈ l.foldl (fun acc x => insertDescStable key x acc) acc, z ∈ l := by
    intro acc hacc
    have sub : ∀ sub : List α, (∀ x ∈ sub, x ∈ l) → ∀ acc, (∀ z ∈ acc, z ∈ l) →
        ∀ z ∈ sub.foldl (fun acc x => insertDescStable key x acc) acc, z ∈ l := by
      intro sub hsub
      induction sub with
      | nil => exact fun acc hacc z hz => hacc z hz
      | cons x xs ih =>
        intro acc hacc z hz
        refine ih (fun x' hx' => hsub x' (List.mem_cons_of_mem _ hx')) _ ?_ z hz
        intro z' hz'
        rcases mem_insertDescStable key x z' acc hz' with rfl | h'
        · exact hsub z' (List.mem_cons_self _ _)
        · exact hacc z' h'
    exact sub l (fun x hx => hx) acc hacc
  exact main [] (fun z hz => absurd hz (List.not_mem_nil _)) y h

theorem sortedFiles_sub (st : BuildState) :
    ∀ e ∈ sortedFiles st, e ∈ st.files := by
  intro e he
  unfold sortedFiles at he
  exact mem_sortDescStable _ _ _ (List.mem_of_mem_take he)

theorem mkNodes_person_key (st : BuildState) (p : String) (hp : p ∈ st.people) :
    (alookup ("person-" ++ p) (mkNodes st)).isSome := by
  unfold mkNodes
  dsimp only
  refine insFold_hasKey_base _ _ _ _ _ ?_
  refine insFold_hasKey_base _ _ _ _ _ ?_
  refine insFold_hasKey_base _ _ _ _ _ ?_
  refine insFold_hasKey_base _ _ _ _ _ ?_
  exact insFold_hasKey_mem _ _ _ _ p hp

theorem mkNodes_module_key (st : BuildState) (m : String) (hm : m ∈ st.modules) :
    (alookup ("module-" ++ m) (mkNodes st)).isSome := by
  unfold mkNodes
  dsimp only
  refine insFold_hasKey_base _ _ _ _ _ ?_
  refine insFold_hasKey_base _ _ _ _ _ ?_
  refine insFold_hasKey_base _ _ _ _ _ ?_
  exact insFold_hasKey_mem _ _ _ _ m hm

theorem mkNodes_decision_key (st : BuildState) (i : Nat)
    (hi : i < (st.decisions.take 15).length) :
    (alookup ("decision-" ++ toString i) (mkNodes st)).isSome := by
  unfold mkNodes
  dsimp only
  refine insFold_hasKey_base _ _ _ _ _ ?_
  refine insFold_hasKey_base _ _ _ _ _ ?_
  obtain ⟨x, hx⟩ := mem_enum_of_lt (st.decisions.take 15) i hi
  exact insFold_hasKey_mem (fun idp : Nat × String => "decision-" ++ toString idp.1)
    (fun idp => decisionNode idp.1 idp.2) _ _ (i, x) hx

theorem mkNodes_id (st : BuildState) : ∀ e ∈ mkNodes st, e.2.id = e.1 := by
  unfold mkNodes
  dsimp only
  refine insFold_forall _ _ _ _ _ ?_ (fun b hb => rfl)
  refine insFold_forall _ _ _ _ _ ?_ (fun b hb => rfl)
  refine insFold_forall _ _ _ _ _ ?_ (fun b hb => rfl)
  refine insFold_forall _ _ _ _ _ ?_ (fun b hb => rfl)
  refine insFold_forall _ _ _ _ _ ?_ (fun b hb => rfl)
  exact fun e he => absurd he (List.not_mem_nil _)

theorem annotate_id_mem (ns : List (String × Node)) (links : List Link) (k : String)
    (hid : ∀ e ∈ ns, e.2.id = e.1) (h : (alookup k ns).isSome) :
    ∃ n ∈ annotate ns links, n.id = k := by
  rcases ho : alookup k ns with _ | v
  · rw [ho] at h
    exact absurd h (by simp)
  · have hmem := alookup_mem ho
    refine ⟨{ v with connections := connectionsOf links k }, ?_, ?_⟩
    · unfold annotate
      exact List.mem_map.mpr ⟨(k, v), hmem, rfl⟩
    · exact hid (k, v) hmem

/-! ## Link endpoints land on node keys -/

theorem usesLinks_endpoints (st : BuildState) (hinv : StInv st) (l : Link)
    (hl : l ∈ usesLinks st) :
    (alookup l.source (mkNodes st)).isSome ∧ (alookup l.target (mkNodes st)).isSome := by
  obtain ⟨-, -, r1, -, -, -, -⟩ := hinv
  unfold usesLinks at hl
  rcases (mem_foldl_append _ _ _ _).mp hl with h | ⟨pm, hpm, hmem⟩
  · exact absurd h (List.not_mem_nil _)
  · rcases List.mem_map.mp hmem with ⟨m, hm, rfl⟩
    exact ⟨mkNodes_person_key st pm.1 (r1 pm hpm).1,
      mkNodes_module_key st m ((r1 pm hpm).2 m hm)⟩

theorem decidedLinks_endpoints (st : BuildState) (hinv : StInv st) (l : Link)
    (hl : l ∈ decidedLinks st) :
    (alookup l.source (mkNodes st)).isSome ∧ (alookup l.target (mkNodes st)).isSome := by
  obtain ⟨-, -, -, r2, -, -, -⟩ := hinv
  unfold decidedLinks at hl
  rcases (mem_foldl_append _ _ _ _).mp hl with h | ⟨pd, hpd, hmem⟩
  · exact absurd h (List.not_mem_nil _)
  · rcases List.mem_filterMap.mp hmem with ⟨d, hd, hfd⟩
    by_cases hdt : d ∈ st.decisions.take 15
    · rw [if_pos hdt] at hfd
      rcases Option.some.inj hfd with rfl
      refine ⟨mkNodes_person_key st pd.1 (r2 pd hpd).1, ?_⟩
      obtain ⟨h15, hlen⟩ := indexOfD_lt_of_mem_take d st.decisions 15 hdt
      refine mkNodes_decision_key st _ ?_
      rw [List.length_take]
      exact lt_min h15 hlen
    · rw [if_neg hdt] at hfd
      exact absurd hfd (by simp)

theorem relatedLinks_endpoints (st : BuildState) (hinv : StInv st) (l : Link)
    (hl : l ∈ relatedLinks st) :
    (alookup l.source (mkNodes st)).isSome ∧ (alookup l.target (mkNodes st)).isSome := by
  obtain ⟨-, -, -, -, r3, -, -⟩ := hinv
  unfold relatedLinks at hl
  rcases (mem_foldl_append _ _ _ _).mp hl with h | ⟨md, hmd, hmem⟩
  · exact absurd h (List.not_mem_nil _)
  · rcases List.mem_filterMap.mp hmem with ⟨d, hd, hfd⟩
    by_cases hdt : d ∈ st.decisions.take 15
    · rw [if_pos hdt] at hfd
      rcases Option.some.inj hfd with rfl
      refine ⟨mkNodes_module_key st md.1 (r3 md hmd).1, ?_⟩
      obtain ⟨h15, hlen⟩ := indexOfD_lt_of_mem_take d st.decisions 15 hdt
      refine mkNodes_decision_key st _ ?_
      rw [List.length_take]
      exact lt_min h15 hlen
    · rw [if_neg hdt] at hfd
      exact absurd hfd (by simp)

theorem authoredLinks_endpoints (st : BuildState) (hinv : StInv st) (l : Link)
    (hl : l ∈ authoredLinks st (mkNodes st)) :
    (alookup l.source (mkNodes st)).isSome ∧ (alookup l.target (mkNodes st)).isSome := by
  obtain ⟨-, -, -, -, -, r4, -⟩ := hinv
  unfold authoredLinks at hl
  rcases (mem_foldl_append _ _ _ _).mp hl with h | ⟨pc, hpc, hmem⟩
  · exact absurd h (List.not_mem_nil _)
  · rcases List.mem_filterMap.mp hmem with ⟨c, hc, hfc⟩
    by_cases hck : (alookup ("commit-" ++ c.sha) (mkNodes st)).isSome
    · rw [if_pos hck] at hfc
      rcases Option.some.inj hfc with rfl
      exact ⟨mkNodes_person_key st pc.1 (r4 pc hpc), hck⟩
    · rw [if_neg hck] at hfc
      exact absurd hfc (by simp)

theorem modifiedLinks_endpoints (st : BuildState) (l : Link)
    (hl : l ∈ modifiedLinks st (mkNodes st)) :
    (alookup l.source (mkNodes st)).isSome ∧ (alookup l.target (mkNodes st)).isSome := by
  unfold modifiedLinks at hl
  rcases (mem_foldl_append_ite _ _ _ _ _).mp hl with h | ⟨c, hc, hck, hmem⟩
  · exact absurd h (List.not_mem_nil _)
  · rcases List.mem_filterMap.mp hmem with ⟨fp, hfp, hffp⟩
    by_cases h1 : (alookup fp (sortedFiles st)).isSome
    · rw [if_pos h1] at hffp
      by_cases h2 : (alookup (fileId fp) (mkNodes st)).isSome
      · rw [if_pos h2] at hffp
        rcases Option.some.inj hffp with rfl
        exact ⟨hck, h2⟩
      · rw [if_neg h2] at hffp
        exact absurd hffp (by simp)
    · rw [if_neg h1] at hffp
      exact absurd hffp (by simp)

theorem contributedLinks_endpoints (st : BuildState) (hinv : StInv st) (l : Link)
    (hl : l ∈ contributedLinks st (mkNodes st)) :
    (alookup l.source (mkNodes st)).isSome ∧ (alookup l.target (mkNodes st)).isSome := by
  obtain ⟨-, -, -, -, -, -, r5⟩ := hinv
  unfold contributedLinks at hl
  rcases (mem_foldl_append_ite _ _ _ _ _).mp hl with h | ⟨fpd, hfpd, hfk, hmem⟩
  · exact absurd h (List.not_mem_nil _)
  · rcases List.mem_filterMap.mp hmem with ⟨contrib, hcontrib, hfc⟩
    rcases contrib with _ | p
    · exact absurd hfc (by simp)
    · dsimp only at hfc
      rcases Option.some.inj hfc with rfl
      refine ⟨?_, hfk⟩
      exact mkNodes_person_key st p
        (r5 fpd (sortedFiles_sub st fpd hfpd) p hcontrib)

theorem mkLinks_endpoints (st : BuildState) (hinv : StInv st) (l : Link)
    (hl : l ∈ mkLinks st (mkNodes st)) :
    (alookup l.source (mkNodes st)).isSome ∧ (alookup l.target (mkNodes st)).isSome := by
  unfold mkLinks at hl
  simp only [List.mem_append] at hl
  rcases hl with ((((h | h) | h) | h) | h) | h
  · exact usesLinks_endpoints st hinv l h
  · exact decidedLinks_endpoints st hinv l h
  · exact relatedLinks_endpoints st hinv l h
  · exact authoredLinks_endpoints st hinv l h
  · exact modifiedLinks_endpoints st l h
  · exact contributedLinks_endpoints st hinv l h

/-- C1 (amended): in every successful payload, every link's source id and
target id name a node present in the returned node list; an edge whose
capped-out endpoint's derived node id is absent from the node dictionary
is silently dropped (this closure holds in all cases — including short-sha
collisions, where the edge attaches to the surviving node of the same id —
and the decision cap is applied to the same ordered view of the decision
set at node creation and at edge creation, which is what makes the
decision-edge indices resolve inside the node list). -/
theorem C1_link_endpoints_closed (branch repository : String) (docs : List Doc)
    (l : Link) (hl : l ∈ (build_graph branch repository docs).links) :
    (∃ n ∈ (build_graph branch repository docs).nodes, n.id = l.source) ∧
    (∃ n ∈ (build_graph branch repository docs).nodes, n.id = l.target) := by
  unfold build_graph at hl ⊢
  by_cases hd : docs.isEmpty
  · rw [if_pos hd] at hl
    exact absurd hl (List.not_mem_nil _)
  · rw [if_neg hd] at hl ⊢
    dsimp only at hl ⊢
    obtain ⟨hs, ht⟩ := mkLinks_endpoints (processAll docs) (processAll_inv docs) l hl
    exact ⟨annotate_id_mem _ _ _ (mkNodes_id _) hs, annotate_id_mem _ _ _ (mkNodes_id _) ht⟩

/-! ## Uniqueness of node keys and person nodes -/

theorem dictInsert_keysNodup (ns : List (String × Node)) (k : String) (v : Node)
    (h : keysNodup ns) : keysNodup (dictInsert ns k v) := by
  induction ns with
  | nil => simp [keysNodup, dictInsert]
  | cons e rest ih =>
    rcases e with ⟨ke, ve⟩
    unfold keysNodup at h
    rw [List.map_cons, List.nodup_cons] at h
    simp only [dictInsert]
    by_cases hk : ke = k
    · rw [if_pos hk]
      unfold keysNodup
      rw [List.map_cons, List.nodup_cons]
      exact ⟨hk ▸ h.1, h.2⟩
    · rw [if_neg hk]
      unfold keysNodup
      rw [List.map_cons, List.nodup_cons]
      refine ⟨?_, ih h.2⟩
      intro hmem
      rcases List.mem_map.mp hmem with ⟨e', he', hke⟩
      rcases dictInsert_entry e' he' with rfl | h'
      · exact hk hke.symm
      · exact h.1 (List.mem_map.mpr ⟨e', h', hke⟩)

theorem insFold_keysNodup {β : Type} (f : β → String) (g : β → Node) (L : List β)
    (ns : List (String × Node)) (h : keysNodup ns) : keysNodup (insFold f g L ns) := by
  unfold insFold
  refine foldl_preserve keysNodup _ L ns h ?_
  exact fun m hm b _ => dictInsert_keysNodup m (f b) (g b) hm

theorem mkNodes_keysNodup (st : BuildState) : keysNodup (mkNodes st) := by
  unfold mkNodes
  dsimp only
  refine insFold_keysNodup _ _ _ _ ?_
  refine insFold_keysNodup _ _ _ _ ?_
  refine insFold_keysNodup _ _ _ _ ?_
  refine insFold_keysNodup _ _ _ _ ?_
  refine insFold_keysNodup _ _ _ _ ?_
  simp [keysNodup]

theorem nodupKeys_eq {ns : List (String × Node)} (h : keysNodup ns)
    {e₁ e₂ : String × Node} (h₁ : e₁ ∈ ns) (h₂ : e₂ ∈ ns) (hk : e₁.1 = e₂.1) :
    e₁ = e₂ := by
  induction ns with
  | nil => exact absurd h₁ (List.not_mem_nil _)
  | cons e rest ih =>
    unfold keysNodup at h
    rw [List.map_cons, List.nodup_cons] at h
    rcases List.mem_cons.mp h₁ with rfl | h₁'
    · rcases List.mem_cons.mp h₂ with rfl | h₂'
      · rfl
      · exact absurd (List.mem_map.mpr ⟨e₂, h₂', hk.symm⟩) h.1
    · rcases List.mem_cons.mp h₂ with rfl | h₂'
      · exact absurd (List.mem_map.mpr ⟨e₁, h₁', hk⟩) h.1
      · exact ih h.2 h₁' h₂'

theorem annotate_inj (ns : List (String × Node)) (links : List Link)
    (hn : keysNodup ns) (hid : ∀ e ∈ ns, e.2.id = e.1)
    {n₁ n₂ : Node} (h₁ : n₁ ∈ annotate ns links) (h₂ : n₂ ∈ annotate ns links)
    (heq : n₁.id = n₂.id) : n₁ = n₂ := by
  unfold annotate at h₁ h₂
  rcases List.mem_map.mp h₁ with ⟨e₁, he₁, rfl⟩
  rcases List.mem_map.mp h₂ with ⟨e₂, he₂, rfl⟩
  have k₁ : e₁.2.id = e₁.1 := hid e₁ he₁
  have k₂ : e₂.2.id = e₂.1 := hid e₂ he₂
  have hk : e₁.1 = e₂.1 := by
    rw [← k₁, ← k₂]
    exact heq
  rw [nodupKeys_eq hn he₁ he₂ hk]

theorem mkNodes_person_entries (st : BuildState) :
    ∀ e ∈ mkNodes st, e.2.type = "person" →
      ∃ p ∈ st.people, e.1 = "person-" ++ p ∧ e.2.label = "@" ++ p := by
  unfold mkNodes
  dsimp only
  refine insFold_forall _ _ _ _ _ ?_ ?_
  · refine insFold_forall _ _ _ _ _ ?_ ?_
    · refine insFold_forall _ _ _ _ _ ?_ ?_
      · refine insFold_forall _ _ _ _ _ ?_ ?_
        · refine insFold_forall _ _ _ _ _ ?_ ?_
          · exact fun e he => absurd he (List.not_mem_nil _)
          · exact fun b hb _ => ⟨b, hb, rfl, rfl⟩
        · exact fun b hb ht =>
            absurd (show ("module" : String) = "person" from ht) (by decide)
      · exact fun b hb ht =>
          absurd (show ("decision" : String) = "person" from ht) (by decide)
    · exact fun b hb ht =>
        absurd (show ("commit" : String) = "person" from ht) (by decide)
  · exact fun b hb ht =>
      absurd (show ("file" : String) = "person" from ht) (by decide)

theorem strLower_append (s t : String) :
    strLower (s ++ t) = strLower s ++ strLower t := by
  unfold strLower
  rw [string_append_data]
  show (⟨(s.data ++ t.data).map Char.toLower⟩ : String) = ⟨s.data.map Char.toLower ++ t.data.map Char.toLower⟩
  rw [List.map_append]

theorem people_lower_inj (st : BuildState) (hinv : StInv st) {p q : String}
    (hp : p ∈ st.people) (hq : q ∈ st.people) (h : strLower p = strLower q) :
    p = q := by
  obtain ⟨hwf, hreg, -⟩ := hinv
  have h1 := hreg p hp
  have h2 := hreg q hq
  rw [h] at h1
  exact Option.some.inj (h1.symm.trans h2)

/-- Person nodes of a payload correspond to normalized people. -/
theorem payload_person_nodes (branch repository : String) (docs : List Doc)
    (n : Node) (hn : n ∈ (build_graph branch repository docs).nodes)
    (ht : n.type = "person") :
    ∃ p ∈ (processAll docs).people, n.id = "person-" ++ p ∧ n.label = "@" ++ p := by
  unfold build_graph at hn
  by_cases hd : docs.isEmpty
  · rw [if_pos hd] at hn
    exact absurd hn (List.not_mem_nil _)
  · rw [if_neg hd] at hn
    dsimp only at hn
    unfold annotate at hn
    rcases List.mem_map.mp hn with ⟨e, he, rfl⟩
    rcases mkNodes_person_entries (processAll docs) e he ht with ⟨p, hp, hk, hl⟩
    exact ⟨p, hp, (mkNodes_id (processAll docs) e he).trans hk, hl⟩

/-- C3 (amended): `normalize_author` maps `None` and `"Unknown"` to `None`, and
also maps the empty string to `None` (a case the claim omits: `if not author`
is `True` for `""`).  Otherwise, for two non-empty, non-`"Unknown"` authors
agreeing case-insensitively, normalizing the second after the first returns
the identical string, which for a fresh name is the first-seen original
casing; consequently two person nodes of a built graph whose labels agree
case-insensitively are the same node. -/
theorem C3_author_normalization :
    (∀ m, normalize_author none m = (none, m)) ∧
    (∀ m, normalize_author (some "Unknown") m = (none, m)) ∧
    (∀ m, normalize_author (some "") m = (none, m)) ∧
    (∀ a b m, a ≠ "" → a ≠ "Unknown" → b ≠ "" → b ≠ "Unknown" →
      strLower a = strLower b →
      (normalize_author (some b) (normalize_author (some a) m).2).1 =
        (normalize_author (some a) m).1 ∧
      (alookup (strLower a) m = none → (normalize_author (some a) m).1 = some a)) ∧
    (∀ branch repository docs,
      ∀ n₁ ∈ (build_graph branch repository docs).nodes,
      ∀ n₂ ∈ (build_graph branch repository docs).nodes,
      n₁.type = "person" → n₂.type = "person" →
      strLower n₁.label = strLower n₂.label → n₁ = n₂) := by
  refine ⟨fun m => rfl, fun m => by simp [normalize_author],
    fun m => by simp [normalize_author],
    fun a b m ha1 ha2 hb1 hb2 hab => normalize_author_consistent a b m ha1 ha2 hb1 hb2 hab,
    ?_⟩
  intro branch repository docs n₁ h₁ n₂ h₂ ht₁ ht₂ hl
  rcases payload_person_nodes branch repository docs n₁ h₁ ht₁ with ⟨p, hp, hid₁, hlab₁⟩
  rcases payload_person_nodes branch repository docs n₂ h₂ ht₂ with ⟨q, hq, hid₂, hlab₂⟩
  have hpq : p = q := by
    apply people_lower_inj (processAll docs) (processAll_inv docs) hp hq
    rw [hlab₁, hlab₂, strLower_append, strLower_append] at hl
    exact append_left_inj _ _ _ hl
  have hid : n₁.id = n₂.id := by rw [hid₁, hid₂, hpq]
  unfold build_graph at h₁ h₂
  by_cases hd : docs.isEmpty
  · rw [if_pos hd] at h₁
    exact absurd h₁ (List.not_mem_nil _)
  · rw [if_neg hd] at h₁ h₂
    dsimp only at h₁ h₂
    exact annotate_inj _ _ (mkNodes_keysNodup _) (mkNodes_id _) h₁ h₂ hid

/-- Counterexample to C3 as stated: for the empty-string author (which is not
`None` and not `"Unknown"`), `normalize_author` returns `None`, not a string;
so the "otherwise returns the identical string" clause fails for
`a = b = ""`. -/
theorem C3_counterexample :
    "" ≠ "Unknown" ∧ strLower "" = strLower "" ∧
    (normalize_author (some "") []).1 = none ∧
    (normalize_author (some "")
      (normalize_author (some "") []).2).1 = none := by
  exact ⟨by decide, rfl, rfl, rfl⟩

/-- Witness for C3: the consistency clause applied at the concrete pair
"Alice" / "ALICE" on an empty map. -/
theorem C3_witness :
    (normalize_author (some "ALICE")
        (normalize_author (some "Alice") []).2).1 =
      (normalize_author (some "Alice") []).1 ∧
    (normalize_author (some "Alice") []).1 = some "Alice" :=
  have h := C3_author_normalization.2.2.2.1 "Alice" "ALICE" []
    (by decide) (by decide) (by decide) (by decide) (by decide)
  ⟨h.1, h.2 rfl⟩

/-- Counterexample to C1 as stated: an edge whose endpoint entity was excluded
by the 30-commit cap is not always dropped.  The authored-edge guard keys on
the node id `"commit-" ++ short_sha`; in `c1docs` bob's only commit is the
31st (index 30, past the cap, so it gets no node), yet its 7-character short
sha collides with the first commit's, so an authored edge for bob is emitted
— attached to a node whose full sha belongs to a different commit. -/
theorem C1_counterexample :
    (((build_graph "main" "r" c1docs).links.filter
        (fun l => (l.type == "authored") && (l.source == "person-bob"))).map
      (fun l => l.target)) = ["commit-abcdefg"] ∧
    ((processAll c1docs).commits.take 30).all
      (fun c => (c.author != some "bob") && (c.full_sha != "abcdefg9")) = true ∧
    (processAll c1docs).commits.length = 31 ∧
    (((build_graph "main" "r" c1docs).nodes.filter
        (fun n => n.id == "commit-abcdefg")).map (fun n => n.full_sha)) =
      ["abcdefg1"] := by
  decide

/-- Witness for C1: endpoint closure applied to the authored link of the
one-commit graph built from `c1wDoc`. -/
theorem C1_witness :
    (∃ n ∈ (build_graph "main" "repo" [c1wDoc]).nodes, n.id = "person-bob") ∧
    (∃ n ∈ (build_graph "main" "repo" [c1wDoc]).nodes, n.id = "commit-abc1234") :=
  C1_link_endpoints_closed "main" "repo" [c1wDoc]
    { source := "person-bob", target := "commit-abc1234", type := "authored",
      interaction_count := 1 } (by decide)

/-! ## Node-count caps (claim C5) -/

theorem dictInsert_typeCount (ns : List (String × Node)) (k : String) (v : Node)
    (t : String) :
    nodeTypeCount (dictInsert ns k v) t ≤
      nodeTypeCount ns t + (if (v.type == t) = true then 1 else 0) := by
  induction ns with
  | nil =>
    simp only [dictInsert, nodeTypeCount, List.countP_cons, List.countP_nil]
    omega
  | cons e rest ih =>
    rcases e with ⟨ke, ve⟩
    simp only [dictInsert]
    by_cases hk : ke = k
    · rw [if_pos hk]
      simp only [nodeTypeCount, List.countP_cons] at ih ⊢
      split_ifs <;> omega
    · rw [if_neg hk]
      simp only [nodeTypeCount, List.countP_cons] at ih ⊢
      split_ifs at ih ⊢ <;> omega

theorem insFold_typeCount_le {β : Type} (f : β → String) (g : β → Node) (L : List β)
    (ns : List (String × Node)) (t : String) :
    nodeTypeCount (insFold f g L ns) t ≤ nodeTypeCount ns t + L.length := by
  induction L generalizing ns with
  | nil => simp [insFold]
  | cons b L ih =>
    have h1 := dictInsert_typeCount ns (f b) (g b) t
    have h2 := ih (dictInsert ns (f b) (g b))
    unfold insFold at h2 ⊢
    rw [List.foldl_cons]
    simp only [List.length_cons]
    split_ifs at h1 <;> omega

theorem insFold_typeCount_keep {β : Type} (f : β → String) (g : β → Node) (L : List β)
    (t : String) :
    ∀ ns : List (String × Node), (∀ b ∈ L, ((g b).type == t) = false) →
      nodeTypeCount (insFold f g L ns) t ≤ nodeTypeCount ns t := by
  induction L with
  | nil =>
    intro ns h
    simp [insFold]
  | cons b L ih =>
    intro ns h
    have h1 := dictInsert_typeCount ns (f b) (g b) t
    rw [h b (List.mem_cons_self _ _)] at h1
    rw [if_neg (by simp)] at h1
    have h2 := ih (dictInsert ns (f b) (g b))
      (fun b' hb' => h b' (List.mem_cons_of_mem _ hb'))
    unfold insFold at h2 ⊢
    rw [List.foldl_cons]
    omega

theorem mkNodes_decision_count (st : BuildState) :
    nodeTypeCount (mkNodes st) "decision" ≤ 15 := by
  unfold mkNodes
  dsimp only
  refine le_trans (insFold_typeCount_keep _ _ _ _ _ (fun b hb => rfl)) ?_
  refine le_trans (insFold_typeCount_keep _ _ _ _ _ (fun b hb => rfl)) ?_
  refine le_trans (insFold_typeCount_le _ _ _ _ _) ?_
  have hB : nodeTypeCount (insFold (fun m => "module-" ++ m) moduleNode st.modules
      (insFold (fun p => "person-" ++ p) (personNode st) st.people [])) "decision" ≤ 0 := by
    refine le_trans (insFold_typeCount_keep _ _ _ _ _ (fun b hb => rfl)) ?_
    exact insFold_typeCount_keep _ _ _ _ _ (fun b hb => rfl)
  have hlen : ((st.decisions.take 15).enum).length ≤ 15 := by
    rw [List.enum_length, List.length_take]
    exact min_le_left _ _
  omega

theorem mkNodes_commit_count (st : BuildState) :
    nodeTypeCount (mkNodes st) "commit" ≤ 30 := by
  unfold mkNodes
  dsimp only
  refine le_trans (insFold_typeCount_keep _ _ _ _ _ (fun b hb => rfl)) ?_
  refine le_trans (insFold_typeCount_le _ _ _ _ _) ?_
  have hB : nodeTypeCount (insFold (fun idp : Nat × String => "decision-" ++ toString idp.1)
      (fun idp => decisionNode idp.1 idp.2) ((st.decisions.take 15).enum)
      (insFold (fun m => "module-" ++ m) moduleNode st.modules
        (insFold (fun p => "person-" ++ p) (personNode st) st.people []))) "commit" ≤ 0 := by
    refine le_trans (insFold_typeCount_keep _ _ _ _ _ (fun b hb => rfl)) ?_
    refine le_trans (insFold_typeCount_keep _ _ _ _ _ (fun b hb => rfl)) ?_
    exact insFold_typeCount_keep _ _ _ _ _ (fun b hb => rfl)
  have hlen : (st.commits.take 30).length ≤ 30 := by
    rw [List.length_take]
    exact min_le_left _ _
  omega

theorem mkNodes_file_count (st : BuildState) :
    nodeTypeCount (mkNodes st) "file" ≤ 25 := by
  unfold mkNodes
  dsimp only
  refine le_trans (insFold_typeCount_le _ _ _ _ _) ?_
  have hB : nodeTypeCount (insFold (fun c : CommitData => "commit-" ++ c.sha) commitNode
      (st.commits.take 30)
      (insFold (fun idp : Nat × String => "decision-" ++ toString idp.1)
        (fun idp => decisionNode idp.1 idp.2) ((st.decisions.take 15).enum)
        (insFold (fun m => "module-" ++ m) moduleNode st.modules
          (insFold (fun p => "person-" ++ p) (personNode st) st.people [])))) "file" ≤ 0 := by
    refine le_trans (insFold_typeCount_keep _ _ _ _ _ (fun b hb => rfl)) ?_
    refine le_trans (insFold_typeCount_keep _ _ _ _ _ (fun b hb => rfl)) ?_
    refine le_trans (insFold_typeCount_keep _ _ _ _ _ (fun b hb => rfl)) ?_
    exact insFold_typeCount_keep _ _ _ _ _ (fun b hb => rfl)
  have hlen : (sortedFiles st).length ≤ 25 := by
    unfold sortedFiles
    rw [List.length_take]
    exact min_le_left _ _
  omega

theorem annotate_filter_length (ns : List (String × Node)) (links : List Link)
    (t : String) :
    ((annotate ns links).filter (fun n => n.type == t)).length = nodeTypeCount ns t := by
  unfold annotate nodeTypeCount
  rw [← List.countP_eq_length_filter, List.countP_map]
  rfl

theorem mkNodes_commit_entries (st : BuildState) :
    ∀ e ∈ mkNodes st, e.2.type = "commit" →
      ∃ c ∈ st.commits.take 30, e.1 = "commit-" ++ c.sha ∧ e.2 = commitNode c := by
  unfold mkNodes
  dsimp only
  refine insFold_forall _ _ _ _ _ ?_ ?_
  · refine insFold_forall _ _ _ _ _ ?_ ?_
    · refine insFold_forall _ _ _ _ _ ?_ ?_
      · refine insFold_forall _ _ _ _ _ ?_ ?_
        · refine insFold_forall _ _ _ _ _ ?_ ?_
          · exact fun e he => absurd he (List.not_mem_nil _)
          · exact fun b hb ht =>
              absurd (show ("person" : String) = "commit" from ht) (by decide)
        · exact fun b hb ht =>
            absurd (show ("module" : String) = "commit" from ht) (by decide)
      · exact fun b hb ht =>
          absurd (show ("decision" : String) = "commit" from ht) (by decide)
    · exact fun b hb _ => ⟨b, hb, rfl, rfl⟩
  · exact fun b hb ht =>
      absurd (show ("file" : String) = "commit" from ht) (by decide)

/-! ## Link types per family -/

theorem usesLinks_type (st : BuildState) (l : Link) (hl : l ∈ usesLinks st) :
    l.type = "uses" := by
  unfold usesLinks at hl
  rcases (mem_foldl_append _ _ _ _).mp hl with h | ⟨pm, hpm, hmem⟩
  · exact absurd h (List.not_mem_nil _)
  · rcases List.mem_map.mp hmem with ⟨m, hm, rfl⟩
    rfl

theorem decidedLinks_type (st : BuildState) (l : Link) (hl : l ∈ decidedLinks st) :
    l.type = "decided" := by
  unfold decidedLinks at hl
  rcases (mem_foldl_append _ _ _ _).mp hl with h | ⟨pd, hpd, hmem⟩
  · exact absurd h (List.not_mem_nil _)
  · rcases List.mem_filterMap.mp hmem with ⟨d, hd, hdd⟩
    by_cases hc : d ∈ st.decisions.take 15
    · rw [if_pos hc] at hdd
      rcases Option.some.inj hdd with rfl
      rfl
    · rw [if_neg hc] at hdd
      exact Option.noConfusion hdd

theorem relatedLinks_type (st : BuildState) (l : Link) (hl : l ∈ relatedLinks st) :
    l.type = "related" := by
  unfold relatedLinks at hl
  rcases (mem_foldl_append _ _ _ _).mp hl with h | ⟨md, hmd, hmem⟩
  · exact absurd h (List.not_mem_nil _)
  · rcases List.mem_filterMap.mp hmem with ⟨d, hd, hdd⟩
    by_cases hc : d ∈ st.decisions.take 15
    · rw [if_pos hc] at hdd
      rcases Option.some.inj hdd with rfl
      rfl
    · rw [if_neg hc] at hdd
      exact Option.noConfusion hdd

theorem authoredLinks_type (st : BuildState) (nodes : List (String × Node)) (l : Link)
    (hl : l ∈ authoredLinks st nodes) : l.type = "authored" := by
  unfold authoredLinks at hl
  rcases (mem_foldl_append _ _ _ _).mp hl with h | ⟨pc, hpc, hmem⟩
  · exact absurd h (List.not_mem_nil _)
  · rcases List.mem_filterMap.mp hmem with ⟨c, hc, hfc⟩
    by_cases hck : (alookup ("commit-" ++ c.sha) nodes).isSome
    · rw [if_pos hck] at hfc
      rcases Option.some.inj hfc with rfl
      rfl
    · rw [if_neg hck] at hfc
      exact Option.noConfusion hfc

theorem contributedLinks_source (st : BuildState) (nodes : List (String × Node))
    (l : Link) (hl : l ∈ contributedLinks st nodes) :
    l.type = "contributed" ∧
    ∃ fpd ∈ sortedFiles st, ∃ p : String, some p ∈ fpd.2.contributors ∧
      l.source = "person-" ++ p := by
  unfold contributedLinks at hl
  rcases (mem_foldl_append_ite _ _ _ _ _).mp hl with h | ⟨fpd, hfpd, hfk, hmem⟩
  · exact absurd h (List.not_mem_nil _)
  · rcases List.mem_filterMap.mp hmem with ⟨contrib, hcontrib, hfc⟩
    rcases contrib with _ | p
    · exact Option.noConfusion hfc
    · dsimp only at hfc
      rcases Option.some.inj hfc with rfl
      exact ⟨rfl, fpd, hfpd, p, hcontrib, rfl⟩

theorem modifiedLinks_source (st : BuildState) (nodes : List (String × Node))
    (l : Link) (hl : l ∈ modifiedLinks st nodes) :
    l.type = "modified" ∧
    ∃ c ∈ st.commits.take 30, l.source = "commit-" ++ c.sha := by
  unfold modifiedLinks at hl
  rcases (mem_foldl_append_ite _ _ _ _ _).mp hl with h | ⟨c, hc, hck, hmem⟩
  · exact absurd h (List.not_mem_nil _)
  · rcases List.mem_filterMap.mp hmem with ⟨fp, hfp, hffp⟩
    by_cases h1 : (alookup fp (sortedFiles st)).isSome
    · rw [if_pos h1] at hffp
      by_cases h2 : (alookup (fileId fp) nodes).isSome
      · rw [if_pos h2] at hffp
        rcases Option.some.inj hffp with rfl
        exact ⟨rfl, c, hc, rfl⟩
      · rw [if_neg h2] at hffp
        exact Option.noConfusion hffp
    · rw [if_neg h1] at hffp
      exact Option.noConfusion hffp

/-- C5 (amended): the payload has at most 15 decision nodes, at most 30 commit
nodes and at most 25 file nodes; every commit node comes from the first 30
commits in store encounter order; every `modified` link's source is the id of
one of those first 30 commits.  The file ranking is by *occurrence* count
(`len(file_data['commits'])`, one entry per commit document), not by the
claim's "number of distinct commits" — see the counterexample. -/
theorem C5_node_caps (branch repository : String) (docs : List Doc) :
    ((build_graph branch repository docs).nodes.filter
        (fun n => n.type == "decision")).length ≤ 15 ∧
    ((build_graph branch repository docs).nodes.filter
        (fun n => n.type == "commit")).length ≤ 30 ∧
    ((build_graph branch repository docs).nodes.filter
        (fun n => n.type == "file")).length ≤ 25 ∧
    (∀ n ∈ (build_graph branch repository docs).nodes, n.type = "commit" →
      ∃ c ∈ (processAll docs).commits.take 30,
        n.id = "commit-" ++ c.sha ∧ n.sha = c.sha ∧ n.full_sha = c.full_sha) ∧
    (∀ l ∈ (build_graph branch repository docs).links, l.type = "modified" →
      ∃ c ∈ (processAll docs).commits.take 30, l.source = "commit-" ++ c.sha) := by
  unfold build_graph
  by_cases hd : docs.isEmpty
  · rw [if_pos hd]
    refine ⟨by simp, by simp, by simp, ?_, ?_⟩
    · exact fun n hn _ => absurd hn (List.not_mem_nil _)
    · exact fun l hl _ => absurd hl (List.not_mem_nil _)
  · rw [if_neg hd]
    dsimp only
    refine ⟨?_, ?_, ?_, ?_, ?_⟩
    · rw [annotate_filter_length]
      exact mkNodes_decision_count _
    · rw [annotate_filter_length]
      exact mkNodes_commit_count _
    · rw [annotate_filter_length]
      exact mkNodes_file_count _
    · intro n hn ht
      unfold annotate at hn
      rcases List.mem_map.mp hn with ⟨e, he, rfl⟩
      rcases mkNodes_commit_entries (processAll docs) e he ht with ⟨c, hc, hk, hv⟩
      refine ⟨c, hc, ?_, ?_, ?_⟩ <;> (rw [hv]; try rfl)
    · intro l hl ht
      unfold mkLinks at hl
      simp only [List.mem_append] at hl
      rcases hl with ((((h | h) | h) | h) | h) | h
      · rw [usesLinks_type _ _ h] at ht
        exact absurd ht (by decide)
      · rw [decidedLinks_type _ _ h] at ht
        exact absurd ht (by decide)
      · rw [relatedLinks_type _ _ h] at ht
        exact absurd ht (by decide)
      · rw [authoredLinks_type _ _ _ h] at ht
        exact absurd ht (by decide)
      · exact (modifiedLinks_source _ _ _ h).2
      · rw [(contributedLinks_source _ _ _ h).1] at ht
        exact absurd ht (by decide)

set_option maxHeartbeats 4000000 in
/-- Counterexample to C5's ranking clause: in `c5docs`, `dup.c` is touched by
one distinct commit recorded three times (three documents of the same sha),
while `g25.c` is touched by two distinct commits; the code ranks by
occurrence count, so the top-25 cut keeps `dup.c` and drops `g25.c`, the
opposite of a ranking by distinct commits. -/
theorem C5_counterexample :
    ((build_graph "m" "r" c5docs).nodes.filter
      (fun n => n.path == "dup.c")).length = 1 ∧
    ((build_graph "m" "r" c5docs).nodes.filter
      (fun n => n.path == "g25.c")).length = 0 ∧
    ((alookup "dup.c" (processAll c5docs).files).map claimDistinctCommits) = some 1 ∧
    ((alookup "g25.c" (processAll c5docs).files).map claimDistinctCommits) = some 2 := by
  decide

/-- Witness for C5: the modified-link clause applied to the concrete modified
link of the one-commit graph built from `c1wDoc`. -/
theorem C5_witness :
    ∃ c ∈ (processAll [c1wDoc]).commits.take 30,
      ({ source := "commit-abc1234", target := fileId "cache.py",
         type := "modified", interaction_count := 1 } : Link).source =
        "commit-" ++ c.sha :=
  (C5_node_caps "main" "repo" [c1wDoc]).2.2.2.2
    { source := "commit-abc1234", target := fileId "cache.py",
      type := "modified", interaction_count := 1 }
    (by decide) rfl

/-- C10 (confirmed): every `contributed` link's source is `person-` followed
by a normalized (non-null) person whose node exists in the payload — the
`if contributor:` filter skips the `None` entry — even though a `None`
author is still added to a touched file's contributors set: in the concrete
one-document graph `c10Doc` (author `None`), the file's stored contributor
list is `[None]`, the file node reports one contributor, and no contributed
link is emitted. -/
theorem C10_contributed_links (branch repository : String) (docs : List Doc) :
    (∀ l ∈ (build_graph branch repository docs).links, l.type = "contributed" →
      ∃ p ∈ (processAll docs).people, l.source = "person-" ++ p ∧
        ∃ n ∈ (build_graph branch repository docs).nodes, n.id = "person-" ++ p) ∧
    ((alookup "a.c" (processAll [c10Doc]).files).map
      (fun fd => fd.contributors) = some [none]) ∧
    (((build_graph "m" "r" [c10Doc]).nodes.filter
        (fun n => n.type == "file")).map (fun n => n.contributorsCount) = [1]) ∧
    ((build_graph "m" "r" [c10Doc]).links.filter
        (fun l => l.type == "contributed")).length = 0 := by
  refine ⟨?_, by decide, by decide, by decide⟩
  intro l hl ht
  unfold build_graph at hl ⊢
  by_cases hd : docs.isEmpty
  · rw [if_pos hd] at hl
    exact absurd hl (List.not_mem_nil _)
  · rw [if_neg hd] at hl ⊢
    dsimp only at hl ⊢
    unfold mkLinks at hl
    simp only [List.mem_append] at hl
    have hinv := processAll_inv docs
    obtain ⟨-, -, -, -, -, -, r5⟩ := hinv
    rcases hl with ((((h | h) | h) | h) | h) | h
    · rw [usesLinks_type _ _ h] at ht
      exact absurd ht (by decide)
    · rw [decidedLinks_type _ _ h] at ht
      exact absurd ht (by decide)
    · rw [relatedLinks_type _ _ h] at ht
      exact absurd ht (by decide)
    · rw [authoredLinks_type _ _ _ h] at ht
      exact absurd ht (by decide)
    · rw [(modifiedLinks_source _ _ _ h).1] at ht
      exact absurd ht (by decide)
    · rcases contributedLinks_source _ _ _ h with ⟨-, fpd, hfpd, p, hp, hsrc⟩
      have hpp : p ∈ (processAll docs).people :=
        r5 fpd (sortedFiles_sub _ fpd hfpd) p hp
      refine ⟨p, hpp, hsrc, ?_⟩
      exact annotate_id_mem _ _ _ (mkNodes_id _) (mkNodes_person_key _ p hpp)

/-- Witness for C10: the contributed-link clause applied to the concrete
contributed link of the one-commit graph built from `c1wDoc`. -/
theorem C10_witness :
    ∃ p ∈ (processAll [c1wDoc]).people,
      ({ source := "person-bob", target := fileId "cache.py",
         type := "contributed", interaction_count := 1 } : Link).source =
          "person-" ++ p ∧
        ∃ n ∈ (build_graph "main" "repo" [c1wDoc]).nodes, n.id = "person-" ++ p :=
  (C10_contributed_links "main" "repo" [c1wDoc]).1
    { source := "person-bob", target := fileId "cache.py",
      type := "contributed", interaction_count := 1 }
    (by decide) rfl

end ContextKeeper
